import Mathlib

/-!
Verification of the evaluation reconciliation and aggregation pipeline of
`server.js` (evaluation dashboard backend).

The JavaScript source is shallowly embedded: each JS helper becomes an
executable Lean definition over `String` / `List Char`, JS numbers that can
be `NaN` become `Option Int` (`none` = `NaN`), fallible operations become
`Except`.  Regex-based code (`String.prototype.match`, `replace` with the
`g` flag) is embedded by deterministic scanners that reproduce the
left-to-right, non-overlapping match semantics of the concrete patterns
appearing in the source.
-/

namespace Server

/-! ## JS primitives -/

/-- The character class `\s` of JavaScript regular expressions
(ASCII whitespace plus the Unicode space separators). -/
def isJsSpace (c : Char) : Bool :=
  c.toNat = 32 ∨ c.toNat = 9 ∨ c.toNat = 10 ∨ c.toNat = 13 ∨ c.toNat = 11 ∨
  c.toNat = 12 ∨ c.toNat = 160 ∨ c.toNat = 5760 ∨
  (8192 ≤ c.toNat ∧ c.toNat ≤ 8202) ∨ c.toNat = 8232 ∨ c.toNat = 8233 ∨
  c.toNat = 8239 ∨ c.toNat = 8287 ∨ c.toNat = 12288 ∨ c.toNat = 65279

/-- The character class `\w` of JavaScript regular expressions. -/
def isWordChar (c : Char) : Bool :=
  (97 ≤ c.toNat ∧ c.toNat ≤ 122) ∨ (65 ≤ c.toNat ∧ c.toNat ≤ 90) ∨
  (48 ≤ c.toNat ∧ c.toNat ≤ 57) ∨ c.toNat = 95

/-- The character class `\d` of JavaScript regular expressions. -/
def isDigitC (c : Char) : Bool := 48 ≤ c.toNat ∧ c.toNat ≤ 57

/-- Numeric value of a decimal digit character. -/
def digitVal (c : Char) : Int := Int.ofNat (c.toNat - 48)

/-- Value of a non-empty list of decimal digits (most significant first). -/
def decValAux (acc : Int) : List Char → Int
  | [] => acc
  | c :: r => decValAux (acc * 10 + digitVal c) r

def decVal (l : List Char) : Int := decValAux 0 l

/-- Value of a hexadecimal digit character. -/
def hexDigitVal (c : Char) : Int :=
  if 48 ≤ c.toNat ∧ c.toNat ≤ 57 then Int.ofNat (c.toNat - 48)
  else if 97 ≤ c.toNat ∧ c.toNat ≤ 102 then Int.ofNat (c.toNat - 87)
  else Int.ofNat (c.toNat - 55)

def isHexDigit (c : Char) : Bool :=
  (48 ≤ c.toNat ∧ c.toNat ≤ 57) ∨ (97 ≤ c.toNat ∧ c.toNat ≤ 102) ∨
  (65 ≤ c.toNat ∧ c.toNat ≤ 70)

def hexValAux (acc : Int) : List Char → Int
  | [] => acc
  | c :: r => hexValAux (acc * 16 + hexDigitVal c) r

/-- JS `parseInt(s)` (no radix argument) on a character list: skip leading
whitespace, optional sign, auto-detected `0x` hex prefix, then the longest
run of digits; `none` models the `NaN` result when no digit is found.
(The model is exact-integer; the float rounding of very large JS numbers is
not relevant to any input considered here.) -/
def jsParseIntCore : List Char → Option Int
  | '0' :: x :: r =>
    if x = 'x' ∨ x = 'X' then
      let hs := r.takeWhile isHexDigit
      if hs = [] then none else some (hexValAux 0 hs)
    else
      some (decVal (('0' :: x :: r).takeWhile isDigitC))
  | l =>
    let ds := l.takeWhile isDigitC
    if ds = [] then none else some (decVal ds)

def jsParseIntL (l : List Char) : Option Int :=
  let l1 := l.dropWhile isJsSpace
  match l1 with
  | '-' :: r => (jsParseIntCore r).map (fun n => -n)
  | '+' :: r => jsParseIntCore r
  | _ => jsParseIntCore l1

def jsParseInt (s : String) : Option Int := jsParseIntL s.toList

/-- JS addition where `NaN` (`none`) poisons the result. -/
def jsAdd : Option Int → Option Int → Option Int
  | some a, some b => some (a + b)
  | _, _ => none

/-- JS multiplication where `NaN` (`none`) poisons the result. -/
def jsMul : Option Int → Option Int → Option Int
  | some a, some b => some (a * b)
  | _, _ => none

/-- JS comparison `x > 0`; `NaN > 0` is `false`. -/
def jsGtZero : Option Int → Bool
  | some n => 0 < n
  | none => false

/-! ## `timeToSeconds` (server.js lines 831-836) -/

/-- JS `String.prototype.split(':')` on a character list. -/
def splitCols : List Char → List (List Char)
  | [] => [[]]
  | ':' :: r => [] :: splitCols r
  | c :: r =>
    match splitCols r with
    | h :: t => (c :: h) :: t
    | [] => [[c]]

/-- Embedding of `timeToSeconds`: an empty string or the exact string
`00:00:00` gives 0; a split on `:` with other than three parts gives 0;
otherwise `parseInt(parts[0]) * 3600 + parseInt(parts[1]) * 60 +
parseInt(parts[2])`.  The result is an `Option Int`: `none` models `NaN`
(reachable when a component has no leading digit). -/
def timeToSecondsL (l : List Char) : Option Int :=
  if l = [] ∨ l = "00:00:00".toList then some 0
  else
    match splitCols l with
    | [a, b, c] =>
      jsAdd (jsAdd (jsMul (jsParseIntL a) (some 3600)) (jsMul (jsParseIntL b) (some 60)))
        (jsParseIntL c)
    | _ => some 0

def timeToSeconds (s : String) : Option Int := timeToSecondsL s.toList

/-! ## Field extractor (regex matches used by the dashboard and seller routes) -/

/-- `needle` occurs as a contiguous substring of `hay`
(JS `String.prototype.includes`). -/
def hasInfixL (hay needle : List Char) : Bool :=
  if needle.isPrefixOf hay then true
  else
    match hay with
    | [] => false
    | _ :: t => hasInfixL t needle

def containsSub (hay needle : String) : Bool := hasInfixL hay.toList needle.toList

/-- The null test of the valid-`final_score` filter (dashboard lines
1237, seller route line 1463):
`calStr.includes(spaced null form) || calStr.includes(unspaced null form)`. -/
def hasNullScore (cal : String) : Bool :=
  containsSub cal "\"final_score\": null" ∨ containsSub cal "\"final_score\":null"

/-- One-or-two digit component followed by the separator `sep`
(the backtracking behaviour of `\d{1,2}` directly followed by a
one-character literal): greedily two digits then `sep`, else one digit
then `sep`, else no match.  Returns the component and the text after the
separator. -/
def d12Sep (sep : Char) : List Char → Option (List Char × List Char)
  | a :: b :: c :: r =>
    if isDigitC a = true ∧ isDigitC b = true ∧ c = sep then some ([a, b], r)
    else if isDigitC a = true ∧ b = sep then some ([a], c :: r)
    else none
  | [a, b] => if isDigitC a = true ∧ b = sep then some ([a], []) else none
  | _ => none

/-- One-or-two digit component with nothing required after it
(`\d{1,2}` at the end of a pattern): greedy. -/
def d12 : List Char → Option (List Char × List Char)
  | a :: b :: r =>
    if isDigitC a = true then (if isDigitC b = true then some ([a, b], r) else some ([a], b :: r))
    else none
  | [a] => if isDigitC a = true then some ([a], []) else none
  | [] => none

def scoreLit : List Char := "\"final_score\":".toList

def tiempoLit : List Char := "\"tiempo_promedio\":".toList

/-- Attempt the pattern `"final_score":\s*(\d+)` at the head of `l`,
returning the integer value of the captured digits. -/
def tryScoreAt (l : List Char) : Option Int :=
  if scoreLit.isPrefixOf l then
    let r1 := (l.drop scoreLit.length).dropWhile isJsSpace
    let ds := r1.takeWhile isDigitC
    if ds = [] then none else some (decVal ds)
  else none

/-- First match of `calStr.match(/"final_score":\s*(\d+)/)` as the parsed
capture (the code applies `parseInt` to the captured digits). -/
def findScore : List Char → Option Int
  | [] => none
  | c :: r =>
    match tryScoreAt (c :: r) with
    | some v => some v
    | none => findScore r

/-- Attempt the pattern `"tiempo_promedio":\s*"(\d{1,2}:\d{1,2}:\d{1,2})"`
at the head of `l`, returning the captured time string. -/
def tryTiempoAt (l : List Char) : Option (List Char) :=
  if tiempoLit.isPrefixOf l then
    match (l.drop tiempoLit.length).dropWhile isJsSpace with
    | '"' :: r2 =>
      match d12Sep ':' r2 with
      | some (c1, r3) =>
        match d12Sep ':' r3 with
        | some (c2, r4) =>
          match d12Sep '"' r4 with
          | some (c3, _) => some (c1 ++ (':' :: (c2 ++ (':' :: c3))))
          | none => none
        | none => none
      | none => none
    | _ => none
  else none

/-- First match of
`calStr.match(/"tiempo_promedio":\s*"(\d{1,2}:\d{1,2}:\d{1,2})"/)`,
returning the captured time string. -/
def extractTiempo : List Char → Option (List Char)
  | [] => none
  | c :: r =>
    match tryTiempoAt (c :: r) with
    | some t => some t
    | none => extractTiempo r

/-- The usable-score test of the valid-evaluation filter (dashboard lines
1232-1254, seller route lines 1460-1468): an explicit `"final_score"` null
(spaced or unspaced) makes the evaluation unusable regardless of any other
match; otherwise the first numeric `"final_score"` match is the score. -/
def usableScore (cal : String) : Option Int :=
  if hasNullScore cal then none else findScore cal.toList

/-! ## Data model -/

structure Evaluation where
  lead_id : String
  sellers_id : Int
  seller_name : String
  fecha : String
  calificacion : String
  origen_bd : String
deriving DecidableEq, Repr

structure Seller where
  id : Int
  nombre : String
deriving DecidableEq, Repr

/-- A route scope (an entry of `ROUTE_PERMISSIONS`). -/
structure Permissions where
  allowedSellers : List String
deriving DecidableEq, Repr

/-! ## Identity unifier (`SELLER_UNIFICATION`, `getUnifiedSellerName`) -/

/-- The fixed alias table `SELLER_UNIFICATION`; names not in the table map
to themselves. -/
def getUnifiedSellerName (sellerName : String) : String :=
  if sellerName = "María Isabel Calle" then "María Calle"
  else if sellerName = "María Camila Muñoz" then "Camila Muñoz"
  else sellerName

/-! ## Visibility filter (`filterSellersByPermissions`, lines 1029-1062) -/

def jsToLower (s : String) : String := s.map Char.toLower

/-- JS `split(' ')` (split on a single space character). -/
def splitSp (s : String) : List String := s.splitOn " "

/-- The fuzzy fallback of `filterSellersByPermissions`: split both
lower-cased names on spaces and keep when at least two words of the stored
name are substrings of some allowed word or vice versa. -/
def fuzzyMatchWords (sellerName allowedName : String) : Bool :=
  let sellerWords := splitSp (jsToLower sellerName)
  let allowedWords := splitSp (jsToLower allowedName)
  let matchingWords := sellerWords.filter (fun word =>
    allowedWords.any (fun allowedWord =>
      containsSub allowedWord word ∨ containsSub word allowedWord))
  2 ≤ matchingWords.length

/-- The keep-predicate of `filterSellersByPermissions` for one seller. -/
def keepSeller (permissions : Permissions) (seller : Seller) : Bool :=
  let unifiedName := getUnifiedSellerName seller.nombre
  permissions.allowedSellers.contains unifiedName ∨
  permissions.allowedSellers.contains seller.nombre ∨
  permissions.allowedSellers.any (fun allowedName => fuzzyMatchWords seller.nombre allowedName)

/-- `filterSellersByPermissions(sellers, permissions)`; `none` models the
absent-permissions case (`!permissions || !permissions.allowedSellers`). -/
def filterSellersByPermissions (sellers : List Seller) (permissions : Option Permissions) :
    List Seller :=
  match permissions with
  | none => sellers
  | some p => sellers.filter (keepSeller p)

/-! ## Route-scope filtering of evaluation lists -/

/-- The dashboard's permission filter on evaluation lists (lines
1222-1229): with a present scope it keeps an evaluation iff its raw
`seller_name` is in `allowedSellers` (no unification, no fuzzy fallback). -/
def dashPermFilter (permissions : Option Permissions) (evals : List Evaluation) :
    List Evaluation :=
  match permissions with
  | none => evals
  | some p => evals.filter (fun e => p.allowedSellers.contains e.seller_name)

/-- The seller-detail access check (lines 1446-1447): raw name or unified
name in `allowedSellers`. -/
def sellerDetailAllowed (p : Permissions) (sellerName : String) : Bool :=
  p.allowedSellers.contains sellerName ∨
  p.allowedSellers.contains (getUnifiedSellerName sellerName)

/-! ## Aggregator (dashboard global stats, lines 1232-1340) -/

/-- The valid-evaluation filter of the dashboard (lines 1232-1254),
applied after the permission filter. -/
def dashValidEvals (permissions : Option Permissions) (evals : List Evaluation) :
    List Evaluation :=
  (dashPermFilter permissions evals).filter (fun e => (usableScore e.calificacion).isSome)

/-- The valid-evaluation filter of the seller-detail route (lines
1460-1468). -/
def sellerValidEvals (evals : List Evaluation) : List Evaluation :=
  evals.filter (fun e => (usableScore e.calificacion).isSome)

structure GlobalAcc where
  totalLeads : Nat
  totalScore : Int
  totalResponseTime : Int
  validTimeCount : Nat
deriving DecidableEq, Repr

/-- One step of the global-stats loop (lines 1269-1299): re-extract the
score and the duration by regex; a present score counts the lead and adds
the score; the duration is added only when present, not the literal
`00:00:00`, and strictly positive in seconds. -/
def dashStep (acc : GlobalAcc) (e : Evaluation) : GlobalAcc :=
  let cal := e.calificacion.toList
  match findScore cal with
  | none => acc
  | some s =>
    let acc1 : GlobalAcc :=
      { acc with totalLeads := acc.totalLeads + 1, totalScore := acc.totalScore + s }
    match extractTiempo cal with
    | none => acc1
    | some t =>
      if t ≠ "00:00:00".toList ∧ jsGtZero (timeToSecondsL t) then
        match timeToSecondsL t with
        | some n =>
          { acc1 with totalResponseTime := acc1.totalResponseTime + n,
                      validTimeCount := acc1.validTimeCount + 1 }
        | none => acc1
      else acc1

/-- The global stats of `/api/dashboard` over a list of evaluations
already holding a non-empty `calificacion`. -/
def dashboardStats (permissions : Option Permissions) (evals : List Evaluation) : GlobalAcc :=
  (dashValidEvals permissions evals).foldl dashStep ⟨0, 0, 0, 0⟩

/-! ## Multi-source reader (`queryBothDatabases`, lines 974-1015) -/

/-- Origin tag of the primary source. -/
def mainOrigin : String := "Distrito Cafetero"

/-- Origin tag of the secondary source. -/
def bigCenterOrigin : String := "Big Center"

/-- Embedding of `queryBothDatabases`: the primary query result comes
first (a thrown error is fatal and propagates); when a secondary pool is
configured (`some`), its rows are appended, and a secondary error is
swallowed leaving only the primary rows.  Each row is tagged with its
source's `origen_bd` label. -/
def queryBothDatabases {α : Type} (primary : Except String (List α))
    (secondary : Option (Except String (List α))) : Except String (List (α × String)) :=
  match primary with
  | .error e => .error e
  | .ok mainResults =>
    let tagged := mainResults.map (fun row => (row, mainOrigin))
    match secondary with
    | none => .ok tagged
    | some (.error _) => .ok tagged
    | some (.ok bigCenterResults) =>
      .ok (tagged ++ bigCenterResults.map (fun row => (row, bigCenterOrigin)))

/-! ## Input validation (`validatePositiveInteger`, lines 801-807) -/

/-- Embedding of `validatePositiveInteger`: `parseInt` the value; throw
when the result is `NaN` or not positive.  (The source's additional
`!Number.isInteger(num)` test can never fire, because `parseInt` only
returns `NaN` or an integer.) -/
def validatePositiveInteger (value : String) (fieldName : String) : Except String Int :=
  match jsParseInt value with
  | none => .error (fieldName ++ " debe ser un número entero positivo")
  | some num =>
    if num ≤ 0 then .error (fieldName ++ " debe ser un número entero positivo")
    else .ok num

/-- The seller-detail route validates its id parameter before any query
(line 1423); the database is queried exactly when this returns `ok`. -/
def sellerDetailIdCheck (idParam : String) : Except String Int :=
  validatePositiveInteger idParam "Seller ID"

/-! ## Payload repair unit (`fixJsonString`, lines 848-868)

The repair is the composition of six global replacements, embedded here
as left-to-right non-overlapping scanners.  Replacements never match inside
the text a previous match consumed, so each scanner emits the replacement
and then continues after the consumed region; the region's length is
carried as a drop counter, keeping every recursion structural. -/

/-- The tail `\d{1,2}:\d{1,2}` of the time pattern after the first
component and its separator: second and third components and the rest. -/
def timeTail2P (q : List Char) : Option (List Char × List Char × List Char) :=
  match d12Sep ':' q with
  | none => none
  | some (c2, r3) =>
    match d12 r3 with
    | none => none
    | some (c3, rest) => some (c2, c3, rest)

/-- Attempt `\s*(\d{1,2}:\d{1,2}:\d{1,2})` (the part of the time pattern
after the leading colon): returns the three components and the rest. -/
def tryTime (r : List Char) : Option (List Char × List Char × List Char × List Char) :=
  match d12Sep ':' (r.dropWhile isJsSpace) with
  | none => none
  | some (c1, r2) =>
    match timeTail2P r2 with
    | none => none
    | some (c2, c3, rest) => some (c1, c2, c3, rest)

/-- The scanner of `fixed.replace(/:\s*(\d{1,2}:\d{1,2}:\d{1,2})/g, colon
space quoted-capture)`.  A positive first argument drops input characters
already consumed by an emitted match. -/
def fixTimeAux : Nat → List Char → List Char
  | n + 1, l =>
    match l with
    | [] => []
    | _ :: r => fixTimeAux n r
  | 0, l =>
    match l with
    | [] => []
    | ':' :: r =>
      match tryTime r with
      | some (c1, c2, c3, rest) =>
        ':' :: ' ' :: '"' :: (c1 ++ (':' :: (c2 ++ (':' :: (c3 ++ ('"' ::
          fixTimeAux (r.length - rest.length) r))))))
      | none => ':' :: fixTimeAux 0 r
    | c :: r => c :: fixTimeAux 0 r

def fixTime (l : List Char) : List Char := fixTimeAux 0 l

/-- Attempt `\s*LIT\b` for a literal word `LIT` (the part of
`:\s*true\b` and friends after the leading colon): returns the text after
the literal when it matches with a word boundary. -/
def tryLit (lit : List Char) (r : List Char) : Option (List Char) :=
  let r1 := r.dropWhile isJsSpace
  if lit.isPrefixOf r1 then
    match r1.drop lit.length with
    | [] => some []
    | c :: rest => if isWordChar c then none else some (c :: rest)
  else none

/-- The scanner of `fixed.replace(/:\s*LIT\b/g, colon space LIT)` for
`LIT` one of `true`, `false`, `null`. -/
def fixLitAux (lit : List Char) : Nat → List Char → List Char
  | n + 1, l =>
    match l with
    | [] => []
    | _ :: r => fixLitAux lit n r
  | 0, l =>
    match l with
    | [] => []
    | ':' :: r =>
      match tryLit lit r with
      | some rest => ':' :: ' ' :: (lit ++ fixLitAux lit (r.length - rest.length) r)
      | none => ':' :: fixLitAux lit 0 r
    | c :: r => c :: fixLitAux lit 0 r

def trueLit : List Char := "true".toList
def falseLit : List Char := "false".toList
def nullLit : List Char := "null".toList

def fixLit (lit : List Char) (l : List Char) : List Char := fixLitAux lit 0 l

/-- Attempt `\s*(\d+)([,}])` (the part of the numeric pattern after the
leading colon): returns the digits, the delimiter and the rest. -/
def tryNum (r : List Char) : Option (List Char × Char × List Char) :=
  let r1 := r.dropWhile isJsSpace
  let ds := r1.takeWhile isDigitC
  if ds = [] then none
  else
    match r1.drop ds.length with
    | c :: rest => if c = ',' ∨ c = '\x7d' then some (ds, c, rest) else none
    | [] => none

/-- The scanner of `fixed.replace(/:\s*(\d+)([,}])/g, colon space capture
delimiter)`. -/
def fixNumAux : Nat → List Char → List Char
  | n + 1, l =>
    match l with
    | [] => []
    | _ :: r => fixNumAux n r
  | 0, l =>
    match l with
    | [] => []
    | ':' :: r =>
      match tryNum r with
      | some (ds, c, rest) =>
        ':' :: ' ' :: (ds ++ c :: fixNumAux (r.length - rest.length) r)
      | none => ':' :: fixNumAux 0 r
    | c :: r => c :: fixNumAux 0 r

def fixNum (l : List Char) : List Char := fixNumAux 0 l

/-- The first two replacements: remove every `\r` and `\n`. -/
def stripCRLF (l : List Char) : List Char :=
  (l.filter (fun c => c ≠ '\r')).filter (fun c => c ≠ '\n')

/-- Embedding of `fixJsonString` as the composition of the six global
replacements in source order. -/
def fixJsonStringL (l : List Char) : List Char :=
  fixNum (fixLit nullLit (fixLit falseLit (fixLit trueLit (fixTime (stripCRLF l)))))

/-- `fixJsonString(jsonString)`; a falsy (empty) input is returned as is. -/
def fixJsonString (s : String) : String :=
  if s = "" then s else String.mk (fixJsonStringL s.toList)

/-! ## Predicates used to state the claims -/

/-- The extracted `final_score` is present and non-negative. -/
def usableNonnegB (e : Evaluation) : Bool :=
  match usableScore e.calificacion with
  | some n => 0 ≤ n
  | none => false

/-- Tier (a) of the visibility filter: canonicalized name in the
allow-list. -/
def tierCanonical (p : Permissions) (nombre : String) : Bool :=
  p.allowedSellers.contains (getUnifiedSellerName nombre)

/-- Tier (b) of the visibility filter: raw stored name in the
allow-list. -/
def tierRaw (p : Permissions) (nombre : String) : Bool :=
  p.allowedSellers.contains nombre

/-- Tier (c) of the visibility filter: the two-token fuzzy fallback
matches some allowed name. -/
def tierFuzzy (p : Permissions) (nombre : String) : Bool :=
  p.allowedSellers.any (fun allowedName => fuzzyMatchWords nombre allowedName)

/-- The three-tier keep rule of the seller roster filter, on a name. -/
def threeTierKeepName (p : Permissions) (nombre : String) : Bool :=
  tierCanonical p nombre ∨ tierRaw p nombre ∨ tierFuzzy p nombre

/-- What the spec asserts the evaluation-list filter to be: the same
three-tier rule keyed by seller name. -/
def threeTierEvalFilter (p : Permissions) (evals : List Evaluation) : List Evaluation :=
  evals.filter (fun e => threeTierKeepName p e.seller_name)

/-- Concrete evaluation of the seller stored as "María Isabel Calle",
used to compare the two filters. -/
def mariaEval : Evaluation :=
  ⟨"L1", 3, "María Isabel Calle", "2024-01-01", "x", "Distrito Cafetero"⟩

def zeroDurEval : Evaluation :=
  ⟨"L1", 1, "A", "2024-01-01",
    "\x7b\"final_score\": 85, \"tiempo_promedio\": \"00:00:00\"\x7d", "Distrito Cafetero"⟩

/-- The properties shared by the three replacement scanners that the
idempotence argument uses: they fix the empty string, copy non-colon
heads, and at a colon either leave it with the scanner applied to the
tail or emit a colon followed by a space. -/
structure PassP (f : List Char → List Char) : Prop where
  nil : f [] = []
  cons_ne : ∀ (c : Char) (r : List Char), c ≠ ':' → f (c :: r) = c :: f r
  colon_shape : ∀ q : List Char,
    f (':' :: q) = ':' :: f q ∨ ∃ u, f (':' :: q) = ':' :: ' ' :: u

/-- The word literals rewritten by `fixJsonString` are non-empty lowercase
words. -/
structure LitOK (lit : List Char) : Prop where
  ne : lit ≠ []
  lower : ∀ c ∈ lit, 97 ≤ c.toNat ∧ c.toNat ≤ 122

/-- Every colon of the string is time-inactive: the time pattern does not
match at it. -/
def timeClean : List Char → Bool
  | [] => true
  | ':' :: r => (tryTime r).isNone && timeClean r
  | _ :: r => timeClean r

/-- Every colon at which the `LIT` pattern matches is already in the
canonical replaced form (one space then the literal). -/
def litClean (lit : List Char) : List Char → Bool
  | [] => true
  | ':' :: r =>
    (match tryLit lit r with
     | some rest => decide (r = ' ' :: (lit ++ rest))
     | none => true) && litClean lit r
  | _ :: r => litClean lit r

/-- Every colon at which the numeric pattern matches is already in the
canonical replaced form. -/
def numClean : List Char → Bool
  | [] => true
  | ':' :: r =>
    (match tryNum r with
     | some (ds, c, rest) => decide (r = ' ' :: (ds ++ (c :: rest)))
     | none => true) && numClean r
  | _ :: r => numClean r

/-! # Theorems -/

/-- C5: the multi-source reader keeps the primary rows (tagged with the
primary origin) when the secondary source raises; a primary failure
propagates; when both succeed the merge is primary rows then secondary
rows, each tagged with its source's origin label, in natural order. -/
theorem queryBothDatabases_merge_spec {α : Type} (msg : String)
    (rows brows : List α) (sec : Option (Except String (List α))) :
    queryBothDatabases (Except.ok rows) (some (Except.error msg)) =
      Except.ok (rows.map (fun r => (r, mainOrigin))) ∧
    queryBothDatabases (Except.error msg) sec =
      (Except.error msg : Except String (List (α × String))) ∧
    queryBothDatabases (Except.ok rows) (some (Except.ok brows)) =
      Except.ok (rows.map (fun r => (r, mainOrigin)) ++
        brows.map (fun r => (r, bigCenterOrigin))) := by
  refine ⟨rfl, rfl, rfl⟩

/-- C9: the seller-detail id validation rejects `"abc"` and `"0"` before
any query, but the claimed rejection of the non-integer `"3.7"` does not
happen: `parseInt('3.7')` is `3`, so validation succeeds and the query
runs with id 3 (the `!Number.isInteger(num)` test in the source is dead
code). -/
theorem sellerDetailIdCheck_parseInt_truncates :
    sellerDetailIdCheck "3.7" = Except.ok 3 ∧
    sellerDetailIdCheck "abc" =
      Except.error "Seller ID debe ser un número entero positivo" ∧
    sellerDetailIdCheck "0" =
      Except.error "Seller ID debe ser un número entero positivo" ∧
    sellerDetailIdCheck "-5" =
      Except.error "Seller ID debe ser un número entero positivo" := by
  refine ⟨rfl, rfl, rfl, rfl⟩

/-- C4 helper: membership in the permission filter unfolds to the three
named tiers. -/
theorem keepSeller_eq_tiers (p : Permissions) (s : Seller) :
    keepSeller p s = threeTierKeepName p s.nombre := rfl

/-- C4: with a present scope, the seller roster filter keeps a seller iff
its canonicalized name is allowed, or its raw stored name is allowed, or
the two-token fuzzy fallback matches some allowed name; in particular the
seller stored as "María Isabel Calle" is kept under the allow-list
["María Calle"]. -/
theorem filterSellersByPermissions_three_tier :
    (∀ (sellers : List Seller) (p : Permissions) (s : Seller),
       s ∈ filterSellersByPermissions sellers (some p) ↔
         s ∈ sellers ∧
           (tierCanonical p s.nombre ∨ tierRaw p s.nombre ∨ tierFuzzy p s.nombre)) ∧
    filterSellersByPermissions [⟨3, "María Isabel Calle"⟩] (some ⟨["María Calle"]⟩) =
      [⟨3, "María Isabel Calle"⟩] := by
  constructor
  · intro sellers p s
    simp only [filterSellersByPermissions, List.mem_filter, keepSeller_eq_tiers,
      threeTierKeepName, tierCanonical, tierRaw, tierFuzzy, Bool.or_eq_true,
      decide_eq_true_eq]
  · rfl

/-- C3 counterexample: with allow-list ["María Calle"], the dashboard's
evaluation filter drops the evaluation of the seller stored as
"María Isabel Calle" although the three-tier rule keeps it — the
evaluation filter is not the three-tier filter. -/
theorem dashPermFilter_differs_from_three_tier :
    dashPermFilter (some ⟨["María Calle"]⟩) [mariaEval] = [] ∧
    threeTierEvalFilter ⟨["María Calle"]⟩ [mariaEval] = [mariaEval] ∧
    dashPermFilter (some ⟨["María Calle"]⟩) [mariaEval] ≠
      threeTierEvalFilter ⟨["María Calle"]⟩ [mariaEval] := by
  refine ⟨rfl, rfl, by decide⟩

/-- C3 amended: with a present scope the dashboard filters evaluation
lists by raw stored seller-name membership in the allow-list only, and
the seller-detail access check uses raw or canonicalized membership (no
fuzzy fallback in either place). -/
theorem dashPermFilter_raw_membership :
    (∀ (p : Permissions) (evals : List Evaluation) (e : Evaluation),
       e ∈ dashPermFilter (some p) evals ↔ e ∈ evals ∧ tierRaw p e.seller_name) ∧
    (∀ (p : Permissions) (n : String),
       sellerDetailAllowed p n = true ↔ (tierRaw p n = true ∨ tierCanonical p n = true)) := by
  constructor
  · intro p evals e
    simp only [dashPermFilter, List.mem_filter, tierRaw]
  · intro p n
    simp only [sellerDetailAllowed, tierRaw, tierCanonical, decide_eq_true_eq]

theorem digit_not_space {c : Char} (h : isDigitC c = true) : isJsSpace c = false := by
  simp only [isDigitC, decide_eq_true_eq] at h
  simp only [isJsSpace, decide_eq_false_iff_not]
  omega

theorem digit_ne {c d : Char} (h : isDigitC c = true) (hd : isDigitC d = false) : c ≠ d := by
  intro he; subst he; rw [h] at hd; cases hd

theorem takeWhile_digits {l : List Char} (h : ∀ c ∈ l, isDigitC c = true) :
    l.takeWhile isDigitC = l := by
  induction l with
  | nil => rfl
  | cons a r ih =>
    rw [List.takeWhile_cons, h a (by simp), ih (fun c hc => h c (by simp [hc]))]
    simp

theorem decValAux_nonneg (l : List Char) : ∀ acc : Int, 0 ≤ acc → 0 ≤ decValAux acc l := by
  induction l with
  | nil => intro acc h; simpa [decValAux] using h
  | cons c r ih =>
    intro acc h
    rw [decValAux]
    refine ih _ ?_
    have : (0 : Int) ≤ digitVal c := Int.ofNat_nonneg _
    omega

theorem decVal_nonneg (l : List Char) : 0 ≤ decVal l := decValAux_nonneg l 0 le_rfl

theorem jsParseIntCore_digits {l : List Char} (hne : l ≠ [])
    (h : ∀ c ∈ l, isDigitC c = true) : jsParseIntCore l = some (decVal l) := by
  match l with
  | [] => exact absurd rfl hne
  | a :: r =>
    have ha : isDigitC a = true := h a (by simp)
    rw [jsParseIntCore.eq_def]
    split
    · rename_i x r2 heq
      obtain ⟨rfl, rfl⟩ : a = '0' ∧ r = x :: r2 := by
        injection heq with h1 h2; exact ⟨h1, h2⟩
      have hx : isDigitC x = true := h x (by simp)
      have : ¬ (x = 'x' ∨ x = 'X') := by
        rintro (rfl | rfl) <;> simp [isDigitC] at hx
      rw [if_neg this, takeWhile_digits h]
    · rename_i hne2
      rw [takeWhile_digits h]
      simp [hne]

theorem jsParseIntL_digits {l : List Char} (hne : l ≠ [])
    (h : ∀ c ∈ l, isDigitC c = true) : jsParseIntL l = some (decVal l) := by
  match l with
  | [] => exact absurd rfl hne
  | a :: r =>
    have ha : isDigitC a = true := h a (by simp)
    rw [jsParseIntL]
    rw [List.dropWhile_cons, digit_not_space ha]
    have hminus : a ≠ '-' := digit_ne ha (by decide)
    have hplus : a ≠ '+' := digit_ne ha (by decide)
    split
    · rename_i heq; injection heq with h1 _; exact absurd h1 hminus
    · rename_i heq; injection heq with h1 _; exact absurd h1 hplus
    · exact jsParseIntCore_digits hne h

theorem splitCols_no_colon {l : List Char} (h : ':' ∉ l) : splitCols l = [l] := by
  induction l with
  | nil => rfl
  | cons a r ih =>
    have ha : a ≠ ':' := by intro he; exact h (by simp [he])
    rw [splitCols.eq_def]
    split
    · rename_i heq; cases heq
    · rename_i heq; injection heq with h1 _; exact absurd h1 ha
    · rename_i c r2 hne heq
      injection heq with h1 h2
      subst h1; subst h2
      rw [ih (fun hm => h (by simp [hm]))]

theorem splitCols_append {p : List Char} (q : List Char) (h : ':' ∉ p) :
    splitCols (p ++ (':' :: q)) = p :: splitCols q := by
  induction p with
  | nil => rfl
  | cons a r ih =>
    have ha : a ≠ ':' := by intro he; exact h (by simp [he])
    rw [List.cons_append, splitCols.eq_def]
    split
    · rename_i heq; cases heq
    · rename_i heq; injection heq with h1 _; exact absurd h1 ha
    · rename_i c r2 hne heq
      injection heq with h1 h2
      subst h1
      rw [← h2, ih (fun hm => h (by simp [hm]))]

theorem digits_no_colon {l : List Char} (h : ∀ c ∈ l, isDigitC c = true) : ':' ∉ l := by
  intro hm
  have := h ':' hm
  simp [isDigitC] at this

theorem timeToSecondsL_components {d1 d2 d3 : List Char}
    (h1 : d1 ≠ []) (h2 : d2 ≠ []) (h3 : d3 ≠ [])
    (g1 : ∀ c ∈ d1, isDigitC c = true) (g2 : ∀ c ∈ d2, isDigitC c = true)
    (g3 : ∀ c ∈ d3, isDigitC c = true) :
    timeToSecondsL (d1 ++ (':' :: (d2 ++ (':' :: d3)))) =
      some (decVal d1 * 3600 + decVal d2 * 60 + decVal d3) := by
  have hsplit : splitCols (d1 ++ (':' :: (d2 ++ (':' :: d3)))) = [d1, d2, d3] := by
    rw [splitCols_append _ (digits_no_colon g1), splitCols_append _ (digits_no_colon g2),
      splitCols_no_colon (digits_no_colon g3)]
  rw [timeToSecondsL]
  split
  · rename_i hcase
    rcases hcase with hnil | hzero
    · exact absurd hnil (by simp [h1])
    · have hlists : ([d1, d2, d3] : List (List Char)) = [['0','0'], ['0','0'], ['0','0']] := by
        rw [← hsplit, hzero]; rfl
      obtain ⟨e1, e2, e3⟩ : d1 = ['0','0'] ∧ d2 = ['0','0'] ∧ d3 = ['0','0'] := by
        injection hlists with a1 rest1
        injection rest1 with a2 rest2
        injection rest2 with a3 _
        exact ⟨a1, a2, a3⟩
      subst e1; subst e2; subst e3
      rfl
  · rw [hsplit]
    show jsAdd (jsAdd (jsMul (jsParseIntL d1) (some 3600)) (jsMul (jsParseIntL d2) (some 60)))
      (jsParseIntL d3) = _
    rw [jsParseIntL_digits h1 g1, jsParseIntL_digits h2 g2, jsParseIntL_digits h3 g3]
    rfl


theorem d12Sep_spec {sep : Char} {l c r : List Char} (h : d12Sep sep l = some (c, r)) :
    c ≠ [] ∧ c.length ≤ 2 ∧ (∀ x ∈ c, isDigitC x = true) ∧ l = c ++ (sep :: r) := by
  rw [d12Sep.eq_def] at h
  split at h
  · rename_i a b c2 r2
    split at h
    · rename_i hc
      injection h with h1
      injection h1 with hcs hrs
      subst hcs; subst hrs
      refine ⟨by simp, by simp, ?_, by simp [hc.2.2]⟩
      intro x hx
      rcases List.mem_cons.mp hx with rfl | hx2
      · exact hc.1
      rcases List.mem_cons.mp hx2 with rfl | hx3
      · exact hc.2.1
      cases hx3
    · split at h
      · rename_i hc
        injection h with h1
        injection h1 with hcs hrs
        subst hcs; subst hrs
        exact ⟨by simp, by simp, by intro x hx; simp at hx; subst hx; exact hc.1, by simp [hc.2]⟩
      · cases h
  · rename_i a b
    split at h
    · rename_i hc
      injection h with h1
      injection h1 with hcs hrs
      subst hcs; subst hrs
      exact ⟨by simp, by simp, by intro x hx; simp at hx; subst hx; exact hc.1, by simp [hc.2]⟩
    · cases h
  · cases h

theorem d12_spec {l c r : List Char} (h : d12 l = some (c, r)) :
    c ≠ [] ∧ c.length ≤ 2 ∧ (∀ x ∈ c, isDigitC x = true) ∧ l = c ++ r := by
  rw [d12.eq_def] at h
  split at h
  · rename_i a b r2
    split at h
    · rename_i ha
      split at h
      · rename_i hb
        injection h with h1
        injection h1 with hcs hrs
        subst hcs; subst hrs
        refine ⟨by simp, by simp, ?_, by simp⟩
        intro x hx
        rcases List.mem_cons.mp hx with rfl | hx2
        · exact ha
        rcases List.mem_cons.mp hx2 with rfl | hx3
        · exact hb
        cases hx3
      · rename_i hb
        injection h with h1
        injection h1 with hcs hrs
        subst hcs; subst hrs
        exact ⟨by simp, by simp, by intro x hx; simp at hx; subst hx; exact ha, by simp⟩
    · cases h
  · rename_i a
    split at h
    · rename_i ha
      injection h with h1
      injection h1 with hcs hrs
      subst hcs; subst hrs
      exact ⟨by simp, by simp, by intro x hx; simp at hx; subst hx; exact ha, by simp⟩
    · cases h
  · cases h

theorem tryTiempoAt_spec {l t : List Char} (h : tryTiempoAt l = some t) :
    ∃ c1 c2 c3 : List Char,
      t = c1 ++ (':' :: (c2 ++ (':' :: c3))) ∧
      c1 ≠ [] ∧ c2 ≠ [] ∧ c3 ≠ [] ∧
      (∀ x ∈ c1, isDigitC x = true) ∧ (∀ x ∈ c2, isDigitC x = true) ∧
      (∀ x ∈ c3, isDigitC x = true) := by
  rw [tryTiempoAt] at h
  split at h
  · split at h
    · rename_i r2 heq
      split at h
      · rename_i c1 r3 h1
        split at h
        · rename_i c2 r4 h2
          split at h
          · rename_i c3 r5 h3
            injection h with ht
            obtain ⟨n1, _, d1, _⟩ := d12Sep_spec h1
            obtain ⟨n2, _, d2, _⟩ := d12Sep_spec h2
            obtain ⟨n3, _, d3, _⟩ := d12Sep_spec h3
            exact ⟨c1, c2, c3, ht.symm, n1, n2, n3, d1, d2, d3⟩
          · cases h
        · cases h
      · cases h
    · cases h
  · cases h

theorem extractTiempo_spec {l t : List Char} (h : extractTiempo l = some t) :
    ∃ c1 c2 c3 : List Char,
      t = c1 ++ (':' :: (c2 ++ (':' :: c3))) ∧
      c1 ≠ [] ∧ c2 ≠ [] ∧ c3 ≠ [] ∧
      (∀ x ∈ c1, isDigitC x = true) ∧ (∀ x ∈ c2, isDigitC x = true) ∧
      (∀ x ∈ c3, isDigitC x = true) := by
  induction l with
  | nil => cases h
  | cons a r ih =>
    rw [extractTiempo] at h
    split at h
    · rename_i ht
      injection h with h1
      subst h1
      exact tryTiempoAt_spec ht
    · exact ih h

theorem findScore_nonneg {l : List Char} {v : Int} (h : findScore l = some v) : 0 ≤ v := by
  induction l with
  | nil => cases h
  | cons a r ih =>
    rw [findScore] at h
    split at h
    · rename_i hv
      injection h with h1
      subst h1
      simp only [tryScoreAt] at hv
      split at hv
      · split at hv
        · cases hv
        · injection hv with h2
          subst h2
          exact decVal_nonneg _
      · cases hv
    · exact ih h


/-- C2: when the calificacion text contains an explicit `"final_score"` null
in the spaced or unspaced colon form, the extraction yields no usable score
and the evaluation is excluded from the valid-evaluation lists of both the
dashboard and the seller-detail route, even if a numeric
`"final_score": integer` match appears elsewhere in the same text. -/
theorem nullScore_overrides_numeric (cal : String) (h : hasNullScore cal = true) :
    usableScore cal = none ∧
    (∀ (e : Evaluation) (p : Option Permissions) (evals : List Evaluation),
      e.calificacion = cal →
        e ∉ dashValidEvals p evals ∧ e ∉ sellerValidEvals evals) := by
  have hu : usableScore cal = none := by rw [usableScore, if_pos h]
  refine ⟨hu, ?_⟩
  intro e p evals hcal
  constructor
  · intro hmem
    have hq := (List.mem_filter.mp hmem).2
    rw [hcal, hu] at hq
    simp at hq
  · intro hmem
    have hq := (List.mem_filter.mp hmem).2
    rw [hcal, hu] at hq
    simp at hq

theorem nullScore_overrides_numeric_witness :
    hasNullScore "\x7b\"final_score\": null, \"final_score\": 7\x7d" = true ∧
    usableScore "\x7b\"final_score\": null, \"final_score\": 7\x7d" = none ∧
    findScore "\x7b\"final_score\": null, \"final_score\": 7\x7d".toList = some 7 :=
  ⟨by rfl, (nullScore_overrides_numeric _ (by rfl)).1, by rfl⟩

/-- C8: the duration parser maps a string of exactly three colon-separated
numeric components of one or two digits to `H*3600 + M*60 + S` seconds,
maps `00:00:00` to 0, and maps every string without exactly three
colon-separated components (including the empty string) to 0. -/
theorem timeToSeconds_three_components :
    (∀ d1 d2 d3 : List Char,
      d1 ≠ [] → d2 ≠ [] → d3 ≠ [] →
      d1.length ≤ 2 → d2.length ≤ 2 → d3.length ≤ 2 →
      (∀ c ∈ d1, isDigitC c = true) → (∀ c ∈ d2, isDigitC c = true) →
      (∀ c ∈ d3, isDigitC c = true) →
      timeToSecondsL (d1 ++ (':' :: (d2 ++ (':' :: d3)))) =
        some (decVal d1 * 3600 + decVal d2 * 60 + decVal d3)) ∧
    timeToSeconds "00:00:00" = some 0 ∧
    (∀ s : String, (splitCols s.toList).length ≠ 3 → timeToSeconds s = some 0) := by
  refine ⟨?_, rfl, ?_⟩
  · intro d1 d2 d3 h1 h2 h3 _ _ _ g1 g2 g3
    exact timeToSecondsL_components h1 h2 h3 g1 g2 g3
  · intro s hlen
    rw [timeToSeconds, timeToSecondsL]
    split
    · rfl
    · split
      · rename_i a b c heq
        exact absurd (by rw [heq]; rfl) hlen
      · rfl

theorem timeToSeconds_three_components_witness :
    timeToSeconds "02:15:30" = some 8130 ∧ timeToSeconds "1:2" = some 0 := by
  constructor
  · have h := timeToSeconds_three_components.1 ['0','2'] ['1','5'] ['3','0']
      (by decide) (by decide) (by decide) (by decide) (by decide) (by decide)
      (by decide) (by decide) (by decide)
    calc timeToSeconds "02:15:30"
        = timeToSecondsL (['0','2'] ++ (':' :: (['1','5'] ++ (':' :: ['3','0'])))) := rfl
      _ = some (decVal ['0','2'] * 3600 + decVal ['1','5'] * 60 + decVal ['3','0']) := h
      _ = some 8130 := by decide
  · exact timeToSeconds_three_components.2.2 "1:2" (by decide)

/-- C10: the duration parser is not total on three-component strings —
`aa:bb:cc` produces `NaN` (`none`), not 0 — but for any duration produced
by the extraction regex the result is a defined non-negative number, so
the `NaN` branch is unreachable in the pipeline. -/
theorem timeToSeconds_nan_unreachable :
    timeToSeconds "aa:bb:cc" = none ∧
    (∀ (cal t : List Char), extractTiempo cal = some t →
      ∃ n : Int, timeToSecondsL t = some n ∧ 0 ≤ n) := by
  refine ⟨rfl, ?_⟩
  intro cal t h
  obtain ⟨c1, c2, c3, rfl, n1, n2, n3, g1, g2, g3⟩ := extractTiempo_spec h
  refine ⟨decVal c1 * 3600 + decVal c2 * 60 + decVal c3,
    timeToSecondsL_components n1 n2 n3 g1 g2 g3, ?_⟩
  have q1 : 0 ≤ decVal c1 * 3600 := mul_nonneg (decVal_nonneg c1) (by norm_num)
  have q2 : 0 ≤ decVal c2 * 60 := mul_nonneg (decVal_nonneg c2) (by norm_num)
  have q3 := decVal_nonneg c3
  omega

theorem timeToSeconds_nan_unreachable_witness :
    ∃ n : Int, timeToSecondsL ("02:15:30".toList) = some n ∧ 0 ≤ n :=
  timeToSeconds_nan_unreachable.2 ("\"tiempo_promedio\": \"02:15:30\"".toList)
    ("02:15:30".toList) (by rfl)


/-- C7: an evaluation with a usable score whose extracted duration is
`00:00:00` or otherwise zero seconds still contributes 1 to totalLeads and
its score to the score sum, and contributes nothing to the duration sum or
count; the duration count moves only for a present, strictly positive
duration. -/
theorem zero_duration_no_time_contribution :
    (∀ (acc : GlobalAcc) (e : Evaluation) (s : Int) (t : List Char),
      findScore e.calificacion.toList = some s →
      extractTiempo e.calificacion.toList = some t →
      (t = "00:00:00".toList ∨ timeToSecondsL t = some 0) →
      dashStep acc e =
        ⟨acc.totalLeads + 1, acc.totalScore + s, acc.totalResponseTime, acc.validTimeCount⟩) ∧
    (∀ (acc : GlobalAcc) (e : Evaluation),
      (dashStep acc e).validTimeCount ≠ acc.validTimeCount →
      ∃ (t : List Char) (n : Int), extractTiempo e.calificacion.toList = some t ∧
        timeToSecondsL t = some n ∧ 0 < n) := by
  constructor
  · intro acc e s t hs ht hz
    rw [dashStep]
    rw [hs, ht]
    dsimp only
    have hcond : ¬ (t ≠ "00:00:00".toList ∧ jsGtZero (timeToSecondsL t) = true) := by
      rcases hz with hz | hz
      · intro hc; exact hc.1 hz
      · intro hc; rw [hz] at hc; simp [jsGtZero] at hc
    rw [if_neg hcond]
  · intro acc e hne
    rw [dashStep] at hne
    rcases hs : findScore e.calificacion.toList with _ | s
    · rw [hs] at hne; simp at hne
    rw [hs] at hne
    dsimp only at hne
    rcases ht : extractTiempo e.calificacion.toList with _ | t
    · rw [ht] at hne; simp at hne
    rw [ht] at hne
    dsimp only at hne
    by_cases hcond : t ≠ "00:00:00".toList ∧ jsGtZero (timeToSecondsL t) = true
    · rcases hsec : timeToSecondsL t with _ | n
      · rw [hsec, jsGtZero] at hcond
        simp at hcond
      · refine ⟨t, n, rfl, hsec, ?_⟩
        have := hcond.2
        rw [hsec] at this
        simpa [jsGtZero] using this
    · rw [if_neg hcond] at hne
      simp at hne

theorem zero_duration_no_time_contribution_witness :
    dashStep ⟨0, 0, 0, 0⟩ zeroDurEval = ⟨1, 85, 0, 0⟩ := by
  have h := zero_duration_no_time_contribution.1 ⟨0, 0, 0, 0⟩ zeroDurEval 85
    ("00:00:00".toList) (by rfl) (by rfl) (Or.inl rfl)
  simpa using h


theorem usableScore_some_findScore {cal : String} {n : Int} (h : usableScore cal = some n) :
    findScore cal.toList = some n := by
  rw [usableScore] at h
  split at h
  · cases h
  · exact h

theorem usable_isSome_eq_nonneg (e : Evaluation) :
    (usableScore e.calificacion).isSome = usableNonnegB e := by
  rw [usableNonnegB]
  rcases h : usableScore e.calificacion with _ | n
  · rfl
  · have := findScore_nonneg (usableScore_some_findScore h)
    simp [this]

theorem dashStep_totalLeads_succ {e : Evaluation} {s : Int} (acc : GlobalAcc)
    (h : findScore e.calificacion.toList = some s) :
    (dashStep acc e).totalLeads = acc.totalLeads + 1 := by
  rw [dashStep, h]
  dsimp only
  rcases ht : extractTiempo e.calificacion.toList with _ | t
  · rfl
  · dsimp only
    split
    · rcases timeToSecondsL t with _ | n <;> rfl
    · rfl

theorem foldl_dashStep_totalLeads (l : List Evaluation) (acc : GlobalAcc)
    (h : ∀ e ∈ l, (findScore e.calificacion.toList).isSome = true) :
    (l.foldl dashStep acc).totalLeads = acc.totalLeads + l.length := by
  induction l generalizing acc with
  | nil => rfl
  | cons e r ih =>
    rw [List.foldl_cons]
    rcases hs : findScore e.calificacion.toList with _ | s
    · have := h e (by simp)
      rw [hs] at this
      simp at this
    · rw [ih (dashStep acc e) (fun x hx => h x (by simp [hx])),
        dashStep_totalLeads_succ acc hs]
      simp [List.length_cons]
      omega

/-- C1: the dashboard's reported `totalLeads` equals the number of
evaluations (after scope filtering) whose extracted `final_score` is
present and non-negative, and the score filter commutes with the seller
permission filter, so the count is independent of the order in which the
two filters are applied. -/
theorem dashboard_totalLeads_count :
    ∀ (p : Option Permissions) (evals : List Evaluation),
      (dashboardStats p evals).totalLeads =
        ((dashPermFilter p evals).filter usableNonnegB).length ∧
      (dashPermFilter p evals).filter usableNonnegB =
        dashPermFilter p (evals.filter usableNonnegB) := by
  intro p evals
  constructor
  · rw [dashboardStats]
    have hmem : ∀ e ∈ dashValidEvals p evals,
        (findScore e.calificacion.toList).isSome = true := by
      intro e he
      have hq := (List.mem_filter.mp he).2
      rcases h : usableScore e.calificacion with _ | n
      · rw [h] at hq; simp at hq
      · rw [usableScore_some_findScore h]; rfl
    rw [foldl_dashStep_totalLeads _ _ hmem]
    have : dashValidEvals p evals = (dashPermFilter p evals).filter usableNonnegB := by
      rw [dashValidEvals]
      exact List.filter_congr (fun e _ => usable_isSome_eq_nonneg e)
    rw [this]
    simp
  · rcases p with _ | p
    · rfl
    · exact List.filter_comm _ _ _

theorem dropWhile_eq_drop_takeWhile (p : Char → Bool) (l : List Char) :
    l.dropWhile p = l.drop (l.takeWhile p).length := by
  induction l with
  | nil => rfl
  | cons a r ih =>
    rw [List.dropWhile_cons, List.takeWhile_cons]
    cases h : p a
    · simp
    · simpa using ih

theorem drop_sub_len (r pre rest : List Char) (h : r = pre ++ rest) :
    r.drop (r.length - rest.length) = rest := by
  subst h
  rw [List.length_append, Nat.add_sub_cancel, List.drop_left]

theorem fixTimeAux_drop (n : Nat) (l : List Char) : fixTimeAux n l = fixTime (l.drop n) := by
  induction n generalizing l with
  | zero => rfl
  | succ m ih =>
    cases l with
    | nil => rfl
    | cons c r => rw [List.drop_succ_cons, ← ih r]; rfl

theorem fixLitAux_drop (lit : List Char) (n : Nat) (l : List Char) :
    fixLitAux lit n l = fixLit lit (l.drop n) := by
  induction n generalizing l with
  | zero => rfl
  | succ m ih =>
    cases l with
    | nil => rfl
    | cons c r => rw [List.drop_succ_cons, ← ih r]; rfl

theorem fixNumAux_drop (n : Nat) (l : List Char) : fixNumAux n l = fixNum (l.drop n) := by
  induction n generalizing l with
  | zero => rfl
  | succ m ih =>
    cases l with
    | nil => rfl
    | cons c r => rw [List.drop_succ_cons, ← ih r]; rfl

theorem takeWhile_all_space (l : List Char) :
    ∀ c ∈ l.takeWhile isJsSpace, isJsSpace c = true :=
  fun _ hc => List.mem_takeWhile_imp hc

/-- Decomposition of a successful `timeTail2P` match. -/
theorem timeTail2P_spec {q c2 c3 rest : List Char}
    (h : timeTail2P q = some (c2, c3, rest)) :
    q = c2 ++ (':' :: (c3 ++ rest)) ∧
    c2 ≠ [] ∧ c2.length ≤ 2 ∧ (∀ x ∈ c2, isDigitC x = true) ∧
    c3 ≠ [] ∧ c3.length ≤ 2 ∧ (∀ x ∈ c3, isDigitC x = true) := by
  rw [timeTail2P] at h
  rcases h2 : d12Sep ':' q with _ | ⟨e2, r3⟩
  · rw [h2] at h; cases h
  rw [h2] at h
  dsimp only at h
  rcases h3 : d12 r3 with _ | ⟨e3, r4⟩
  · rw [h3] at h; cases h
  rw [h3] at h
  dsimp only at h
  injection h with h1
  obtain ⟨q2, q3, q4⟩ : e2 = c2 ∧ e3 = c3 ∧ r4 = rest := by
    injection h1 with a2 b2
    injection b2 with a3 b3
    exact ⟨a2, a3, b3⟩
  subst q2; subst q3; subst q4
  obtain ⟨n2, l2, d2, e2eq⟩ := d12Sep_spec h2
  obtain ⟨n3, l3, d3, e3eq⟩ := d12_spec h3
  exact ⟨by rw [e2eq, e3eq], n2, l2, d2, n3, l3, d3⟩

/-- Decomposition of a successful `tryTime` match. -/
theorem tryTime_spec {r c1 c2 c3 rest : List Char}
    (h : tryTime r = some (c1, c2, c3, rest)) :
    r = r.takeWhile isJsSpace ++ (c1 ++ (':' :: (c2 ++ (':' :: (c3 ++ rest))))) ∧
    (∀ c ∈ r.takeWhile isJsSpace, isJsSpace c = true) ∧
    c1 ≠ [] ∧ c1.length ≤ 2 ∧ (∀ x ∈ c1, isDigitC x = true) ∧
    c2 ≠ [] ∧ c2.length ≤ 2 ∧ (∀ x ∈ c2, isDigitC x = true) ∧
    c3 ≠ [] ∧ c3.length ≤ 2 ∧ (∀ x ∈ c3, isDigitC x = true) := by
  rw [tryTime] at h
  rcases h1 : d12Sep ':' (r.dropWhile isJsSpace) with _ | ⟨e1, r2⟩
  · rw [h1] at h; cases h
  rw [h1] at h
  dsimp only at h
  rcases h2 : timeTail2P r2 with _ | ⟨⟨e2, e3, r4⟩⟩
  · rw [h2] at h; cases h
  rw [h2] at h
  dsimp only at h
  injection h with h1'
  obtain ⟨q1, q2, q3, q4⟩ : e1 = c1 ∧ e2 = c2 ∧ e3 = c3 ∧ r4 = rest := by
    injection h1' with a1 b1
    injection b1 with a2 b2
    injection b2 with a3 b3
    exact ⟨a1, a2, a3, b3⟩
  subst q1; subst q2; subst q3; subst q4
  obtain ⟨n1, l1, d1, e1eq⟩ := d12Sep_spec h1
  obtain ⟨heq, n2, l2, d2, n3, l3, d3⟩ := timeTail2P_spec h2
  refine ⟨?_, takeWhile_all_space r, n1, l1, d1, n2, l2, d2, n3, l3, d3⟩
  conv_lhs => rw [← List.takeWhile_append_dropWhile isJsSpace r]
  rw [e1eq, heq]

theorem tryTime_consumed {r c1 c2 c3 rest : List Char}
    (h : tryTime r = some (c1, c2, c3, rest)) :
    r.drop (r.length - rest.length) = rest := by
  obtain ⟨he, -⟩ := tryTime_spec h
  refine drop_sub_len r
    (r.takeWhile isJsSpace ++ (c1 ++ (':' :: (c2 ++ (':' :: c3))))) rest ?_
  conv_lhs => rw [he]
  simp [List.append_assoc]

theorem fixTime_nil : fixTime [] = [] := rfl

theorem fixTime_cons_ne {c : Char} (r : List Char) (h : c ≠ ':') :
    fixTime (c :: r) = c :: fixTime r := by
  show fixTimeAux 0 (c :: r) = c :: fixTimeAux 0 r
  rw [fixTimeAux]
  exact fun hc => h hc

theorem fixTime_colon_none {r : List Char} (h : tryTime r = none) :
    fixTime (':' :: r) = ':' :: fixTime r := by
  show fixTimeAux 0 (':' :: r) = ':' :: fixTimeAux 0 r
  rw [fixTimeAux, h]

theorem fixTime_colon_some {r c1 c2 c3 rest : List Char}
    (h : tryTime r = some (c1, c2, c3, rest)) :
    fixTime (':' :: r) =
      ':' :: ' ' :: '"' :: (c1 ++ (':' :: (c2 ++ (':' :: (c3 ++ ('"' ::
        fixTime rest)))))) := by
  show fixTimeAux 0 (':' :: r) = _
  rw [fixTimeAux, h]
  dsimp only
  rw [fixTimeAux_drop, tryTime_consumed h]


theorem dropWhile_head_not {p : Char → Bool} {l : List Char} {c : Char} {t : List Char}
    (h : l.dropWhile p = c :: t) : p c = false := by
  induction l with
  | nil => cases h
  | cons a r ih =>
    rw [List.dropWhile_cons] at h
    by_cases hp : p a = true
    · rw [if_pos hp] at h; exact ih h
    · rw [if_neg hp] at h
      injection h with h1 _
      subst h1
      exact Bool.not_eq_true _ |>.mp hp

theorem isPrefixOf_append {lit r1 : List Char} (h : lit.isPrefixOf r1 = true) :
    r1 = lit ++ r1.drop lit.length := by
  obtain ⟨t, ht⟩ := List.isPrefixOf_iff_prefix.mp h
  subst ht
  rw [List.drop_left]

/-- Decomposition of a successful `tryLit` match. -/
theorem tryLit_spec {lit r rest : List Char} (h : tryLit lit r = some rest) :
    r = r.takeWhile isJsSpace ++ (lit ++ rest) ∧
    (rest = [] ∨ ∃ c t, rest = c :: t ∧ isWordChar c = false) := by
  rw [tryLit] at h
  split at h
  · rename_i hpre
    have hr1 : r.dropWhile isJsSpace = lit ++ (r.dropWhile isJsSpace).drop lit.length :=
      isPrefixOf_append hpre
    split at h
    · rename_i hdrop
      injection h with h1
      subst h1
      refine ⟨?_, Or.inl rfl⟩
      conv_lhs => rw [← List.takeWhile_append_dropWhile isJsSpace r]
      rw [hr1, hdrop]
    · rename_i c t hdrop
      split at h
      · cases h
      · rename_i hword
        injection h with h1
        subst h1
        refine ⟨?_, Or.inr ⟨c, t, rfl, by simpa using hword⟩⟩
        conv_lhs => rw [← List.takeWhile_append_dropWhile isJsSpace r]
        rw [hr1, hdrop]
  · cases h

theorem tryLit_consumed {lit r rest : List Char} (h : tryLit lit r = some rest) :
    r.drop (r.length - rest.length) = rest := by
  obtain ⟨he, -⟩ := tryLit_spec h
  refine drop_sub_len r (r.takeWhile isJsSpace ++ lit) rest ?_
  conv_lhs => rw [he]
  simp [List.append_assoc]

/-- Decomposition of a successful `tryNum` match. -/
theorem tryNum_spec {r ds rest : List Char} {c : Char} (h : tryNum r = some (ds, c, rest)) :
    r = r.takeWhile isJsSpace ++ (ds ++ c :: rest) ∧
    ds ≠ [] ∧ (∀ x ∈ ds, isDigitC x = true) ∧ (c = ',' ∨ c = '\x7d') ∧
    isDigitC c = false := by
  rw [tryNum] at h
  split at h
  · cases h
  · rename_i hds
    split at h
    · rename_i c2 rest2 hdrop
      split at h
      · rename_i hdelim
        cases h
        have hdrop2 : (r.dropWhile isJsSpace).dropWhile isDigitC = c :: rest := by
          rw [dropWhile_eq_drop_takeWhile isDigitC (r.dropWhile isJsSpace)]
          exact hdrop
        have hcne : isDigitC c = false := dropWhile_head_not hdrop2
        have hr1 : r.dropWhile isJsSpace =
            (r.dropWhile isJsSpace).takeWhile isDigitC ++ (c :: rest) := by
          conv_lhs =>
            rw [← List.takeWhile_append_dropWhile isDigitC (r.dropWhile isJsSpace)]
          rw [hdrop2]
        refine ⟨?_, hds, fun x hx => List.mem_takeWhile_imp hx, hdelim, hcne⟩
        conv_lhs => rw [← List.takeWhile_append_dropWhile isJsSpace r]
        exact congrArg (fun x => List.takeWhile isJsSpace r ++ x) hr1
      · cases h
    · cases h

theorem tryNum_consumed {r ds rest : List Char} {c : Char}
    (h : tryNum r = some (ds, c, rest)) :
    r.drop (r.length - rest.length) = rest := by
  obtain ⟨he, -⟩ := tryNum_spec h
  refine drop_sub_len r (r.takeWhile isJsSpace ++ (ds ++ [c])) rest ?_
  conv_lhs => rw [he]
  simp [List.append_assoc]

theorem fixLit_nil (lit : List Char) : fixLit lit [] = [] := rfl

theorem fixLit_cons_ne (lit : List Char) {c : Char} (r : List Char) (h : c ≠ ':') :
    fixLit lit (c :: r) = c :: fixLit lit r := by
  show fixLitAux lit 0 (c :: r) = c :: fixLitAux lit 0 r
  rw [fixLitAux]
  exact fun hc => h hc

theorem fixLit_colon_none (lit : List Char) {r : List Char} (h : tryLit lit r = none) :
    fixLit lit (':' :: r) = ':' :: fixLit lit r := by
  show fixLitAux lit 0 (':' :: r) = ':' :: fixLitAux lit 0 r
  rw [fixLitAux, h]

theorem fixLit_colon_some (lit : List Char) {r rest : List Char}
    (h : tryLit lit r = some rest) :
    fixLit lit (':' :: r) = ':' :: ' ' :: (lit ++ fixLit lit rest) := by
  show fixLitAux lit 0 (':' :: r) = _
  rw [fixLitAux, h]
  dsimp only
  rw [fixLitAux_drop, tryLit_consumed h]

theorem fixNum_nil : fixNum [] = [] := rfl

theorem fixNum_cons_ne {c : Char} (r : List Char) (h : c ≠ ':') :
    fixNum (c :: r) = c :: fixNum r := by
  show fixNumAux 0 (c :: r) = c :: fixNumAux 0 r
  rw [fixNumAux]
  exact fun hc => h hc

theorem fixNum_colon_none {r : List Char} (h : tryNum r = none) :
    fixNum (':' :: r) = ':' :: fixNum r := by
  show fixNumAux 0 (':' :: r) = ':' :: fixNumAux 0 r
  rw [fixNumAux, h]

theorem fixNum_colon_some {r ds rest : List Char} {c : Char}
    (h : tryNum r = some (ds, c, rest)) :
    fixNum (':' :: r) = ':' :: ' ' :: (ds ++ c :: fixNum rest) := by
  show fixNumAux 0 (':' :: r) = _
  rw [fixNumAux, h]
  dsimp only
  rw [fixNumAux_drop, tryNum_consumed h]


theorem passP_fixTime : PassP fixTime := by
  refine ⟨rfl, fun c r h => fixTime_cons_ne r h, fun q => ?_⟩
  rcases h : tryTime q with _ | ⟨⟨c1, c2, c3, rest⟩⟩
  · exact Or.inl (fixTime_colon_none h)
  · exact Or.inr ⟨_, fixTime_colon_some h⟩

theorem passP_fixLit (lit : List Char) : PassP (fixLit lit) := by
  refine ⟨rfl, fun c r h => fixLit_cons_ne lit r h, fun q => ?_⟩
  rcases h : tryLit lit q with _ | rest
  · exact Or.inl (fixLit_colon_none lit h)
  · exact Or.inr ⟨_, fixLit_colon_some lit h⟩

theorem passP_fixNum : PassP fixNum := by
  refine ⟨rfl, fun c r h => fixNum_cons_ne r h, fun q => ?_⟩
  rcases h : tryNum q with _ | ⟨⟨ds, c, rest⟩⟩
  · exact Or.inl (fixNum_colon_none h)
  · exact Or.inr ⟨_, fixNum_colon_some h⟩

theorem PassP.copy {f : List Char → List Char} (hf : PassP f) {p : List Char}
    (q : List Char) (h : ∀ c ∈ p, c ≠ ':') : f (p ++ q) = p ++ f q := by
  induction p with
  | nil => rfl
  | cons a r ih =>
    rw [List.cons_append, hf.cons_ne a _ (h a (by simp)),
      ih (fun c hc => h c (by simp [hc]))]
    rfl

theorem PassP.head {f : List Char → List Char} (hf : PassP f) (l : List Char) :
    (f l).head? = l.head? := by
  cases l with
  | nil => rw [hf.nil]
  | cons c r =>
    by_cases hc : c = ':'
    · subst hc
      rcases hf.colon_shape r with h | ⟨u, h⟩ <;> rw [h] <;> rfl
    · rw [hf.cons_ne c r hc]
      rfl

theorem colon_not_space : isJsSpace ':' = false := by decide

theorem colon_not_digit : isDigitC ':' = false := by decide

theorem PassP.dropSpace {f : List Char → List Char} (hf : PassP f) (l : List Char) :
    (f l).dropWhile isJsSpace = f (l.dropWhile isJsSpace) := by
  induction l with
  | nil => simp [hf.nil]
  | cons c r ih =>
    by_cases hsp : isJsSpace c = true
    · have hc : c ≠ ':' := by
        intro he; subst he; rw [colon_not_space] at hsp; cases hsp
      rw [hf.cons_ne c r hc, List.dropWhile_cons, List.dropWhile_cons, hsp]
      simpa using ih
    · have hstop : (c :: r).dropWhile isJsSpace = c :: r := by
        rw [List.dropWhile_cons, if_neg (by simp [hsp])]
      rw [hstop]
      by_cases hc : c = ':'
      · subst hc
        rcases hf.colon_shape r with h | ⟨u, h⟩ <;>
          rw [h, List.dropWhile_cons, if_neg (by simp [colon_not_space])]
      · rw [hf.cons_ne c r hc, List.dropWhile_cons, if_neg (by simp [hsp])]

theorem PassP.prefix_agree {f : List Char → List Char} (hf : PassP f) :
    ∀ (lit r : List Char), (∀ c ∈ lit, c ≠ ':') →
      lit.isPrefixOf (f r) = lit.isPrefixOf r ∧
      (lit.isPrefixOf r = true → (f r).drop lit.length = f (r.drop lit.length)) := by
  intro lit
  induction lit with
  | nil => intro r _; exact ⟨by simp [List.isPrefixOf], fun _ => by simp⟩
  | cons a lt ih =>
    intro r hlit
    have ha : a ≠ ':' := hlit a (by simp)
    cases r with
    | nil =>
      rw [hf.nil]
      exact ⟨rfl, fun h => by cases h⟩
    | cons b q =>
      by_cases hb : b = ':'
      · subst hb
        have h1 : (a :: lt).isPrefixOf (':' :: q) = false := by
          simp [List.isPrefixOf_cons₂, ha]
        rcases hf.colon_shape q with h | ⟨u, h⟩ <;>
          rw [h] <;>
          exact ⟨by simp [List.isPrefixOf_cons₂, ha, h1], fun hp => by rw [h1] at hp; cases hp⟩
      · rw [hf.cons_ne b q hb]
        obtain ⟨e1, e2⟩ := ih q (fun c hc => hlit c (by simp [hc]))
        constructor
        · simp only [List.isPrefixOf_cons₂, e1]
        · intro hp
          simp only [List.isPrefixOf_cons₂, Bool.and_eq_true, beq_iff_eq] at hp
          simp only [List.length_cons, List.drop_succ_cons]
          exact e2 hp.2

theorem PassP.digitrun {f : List Char → List Char} (hf : PassP f) (l : List Char) :
    (f l).takeWhile isDigitC = l.takeWhile isDigitC ∧
    (f l).dropWhile isDigitC = f (l.dropWhile isDigitC) := by
  induction l with
  | nil => simp [hf.nil]
  | cons c r ih =>
    by_cases hd : isDigitC c = true
    · have hc : c ≠ ':' := digit_ne hd colon_not_digit
      rw [hf.cons_ne c r hc]
      constructor
      · rw [List.takeWhile_cons, List.takeWhile_cons, hd, ih.1]
      · rw [List.dropWhile_cons, List.dropWhile_cons, hd]
        simpa using ih.2
    · have hstop : ∀ x : List Char, x.head? = some c → x.dropWhile isDigitC = x ∧
          x.takeWhile isDigitC = [] := by
        intro x hx
        cases x with
        | nil => cases hx
        | cons y t =>
          injection hx with hy
          subst hy
          rw [List.dropWhile_cons, List.takeWhile_cons, if_neg (by simp [hd])]
          exact ⟨rfl, by simp [hd]⟩
      have hr : (c :: r).dropWhile isDigitC = c :: r := (hstop (c :: r) rfl).1
      have hrt : (c :: r).takeWhile isDigitC = [] := (hstop (c :: r) rfl).2
      have hfh : (f (c :: r)).head? = some c := by rw [hf.head]; rfl
      rw [hr, hrt, (hstop _ hfh).1, (hstop _ hfh).2]
      exact ⟨rfl, rfl⟩


theorem LitOK.no_colon {lit : List Char} (h : LitOK lit) : ∀ c ∈ lit, c ≠ ':' := by
  intro c hc he
  have := h.lower c hc
  rw [he] at this
  revert this
  decide

theorem litOK_true : LitOK trueLit := ⟨by decide, by decide⟩

theorem litOK_false : LitOK falseLit := ⟨by decide, by decide⟩

theorem litOK_null : LitOK nullLit := ⟨by decide, by decide⟩

theorem head_cons_of_head? {x : List Char} {c : Char} (h : x.head? = some c) :
    ∃ t, x = c :: t := by
  cases x with
  | nil => cases h
  | cons y t =>
    injection h with hy
    subst hy
    exact ⟨t, rfl⟩

theorem tryLit_pass {f : List Char → List Char} (hf : PassP f) {lit : List Char}
    (hl : LitOK lit) (r : List Char) :
    tryLit lit (f r) = Option.map f (tryLit lit r) := by
  rw [tryLit, tryLit, hf.dropSpace]
  obtain ⟨e1, e2⟩ := hf.prefix_agree lit (r.dropWhile isJsSpace) hl.no_colon
  rw [e1]
  by_cases hp : lit.isPrefixOf (r.dropWhile isJsSpace) = true
  · rw [if_pos hp, if_pos hp, e2 hp]
    rcases hdr : (r.dropWhile isJsSpace).drop lit.length with _ | ⟨c, t⟩
    · simp [hf.nil]
    · have hhead : (f (c :: t)).head? = some c := by rw [hf.head]; rfl
      obtain ⟨t2, ht2⟩ := head_cons_of_head? hhead
      rw [ht2]
      dsimp only
      by_cases hw : isWordChar c = true
      · rw [if_pos hw, if_pos hw]
        rfl
      · rw [if_neg hw, if_neg hw]
        rw [← ht2]
        rfl
  · rw [if_neg hp, if_neg hp]
    rfl

theorem tryNum_pass {f : List Char → List Char} (hf : PassP f) (r : List Char) :
    tryNum (f r) = Option.map (fun x => (x.1, x.2.1, f x.2.2)) (tryNum r) := by
  rw [tryNum, tryNum, hf.dropSpace]
  obtain ⟨ht, hd⟩ := hf.digitrun (r.dropWhile isJsSpace)
  rw [ht]
  by_cases hds : (r.dropWhile isJsSpace).takeWhile isDigitC = []
  · rw [if_pos hds, if_pos hds]
    rfl
  · rw [if_neg hds, if_neg hds]
    have hdroprw : (f (r.dropWhile isJsSpace)).drop
        ((r.dropWhile isJsSpace).takeWhile isDigitC).length =
        f ((r.dropWhile isJsSpace).drop
          ((r.dropWhile isJsSpace).takeWhile isDigitC).length) := by
      rw [← dropWhile_eq_drop_takeWhile isDigitC]
      conv_lhs =>
        rw [← ht, ← dropWhile_eq_drop_takeWhile isDigitC (f (r.dropWhile isJsSpace))]
      exact hd
    rw [hdroprw]
    rcases hdr : (r.dropWhile isJsSpace).drop
        ((r.dropWhile isJsSpace).takeWhile isDigitC).length with _ | ⟨c, t⟩
    · simp [hf.nil]
    · have hhead : (f (c :: t)).head? = some c := by rw [hf.head]; rfl
      obtain ⟨t2, ht2⟩ := head_cons_of_head? hhead
      rw [ht2]
      dsimp only
      by_cases hdelim : c = ',' ∨ c = '\x7d'
      · rw [if_pos hdelim, if_pos hdelim]
        have hcne : c ≠ ':' := by rcases hdelim with rfl | rfl <;> decide
        have hft : f (c :: t) = c :: f t := hf.cons_ne c t hcne
        rw [hft] at ht2
        injection ht2 with _ h2
        subst h2
        rfl
      · rw [if_neg hdelim, if_neg hdelim]
        rfl


theorem d12Sep_none_head {sep h : Char} {X : List Char} (hd : isDigitC h = false) :
    d12Sep sep (h :: X) = none := by
  rcases X with _ | ⟨b, Y⟩
  · rfl
  · rcases Y with _ | ⟨c, Z⟩ <;> simp [d12Sep, hd]

theorem d12Sep_one {sep a : Char} {y : List Char} (ha : isDigitC a = true)
    (hs : isDigitC sep = false) : d12Sep sep (a :: sep :: y) = some ([a], y) := by
  rcases y with _ | ⟨w, ys⟩ <;> simp [d12Sep, ha, hs]

theorem d12Sep_two {sep a b : Char} {y : List Char} (ha : isDigitC a = true)
    (hb : isDigitC b = true) : d12Sep sep (a :: b :: sep :: y) = some ([a, b], y) := by
  simp [d12Sep, ha, hb]

theorem d12Sep_digits_fail {sep a b w : Char} {y : List Char} (_ : isDigitC a = true)
    (hb : isDigitC b = true) (hw : w ≠ sep) (hs : isDigitC sep = false) :
    d12Sep sep (a :: b :: w :: y) = none := by
  simp [d12Sep, hw, digit_ne hb hs]

theorem d12Sep_single {sep a : Char} : d12Sep sep [a] = none := rfl

theorem d12Sep_max_digits_fail {sep w : Char} {ds y : List Char} (hne : ds ≠ [])
    (hds : ∀ x ∈ ds, isDigitC x = true) (hw : w ≠ sep) (hwd : isDigitC w = false)
    (hs : isDigitC sep = false) : d12Sep sep (ds ++ w :: y) = none := by
  rcases ds with _ | ⟨a, ds1⟩
  · exact absurd rfl hne
  have ha := hds a (by simp)
  rcases ds1 with _ | ⟨b, ds2⟩
  · rcases y with _ | ⟨z, ys⟩ <;> simp [d12Sep, hw, hwd]
  · have hb := hds b (by simp)
    rcases ds2 with _ | ⟨c, ds3⟩
    · exact d12Sep_digits_fail ha hb hw hs
    · have hc := hds c (by simp)
      simp [d12Sep, digit_ne hb hs, digit_ne hc hs]

theorem d12_nil : d12 [] = none := rfl

theorem d12_none_of_head {c : Char} {t : List Char} (hd : isDigitC c = false) :
    d12 (c :: t) = none := by
  rcases t with _ | ⟨b, Y⟩ <;> simp [d12, hd]

theorem d12_none_head_false {c : Char} {t : List Char} (h : d12 (c :: t) = none) :
    isDigitC c = false := by
  by_contra hc
  have hc2 : isDigitC c = true := by simpa using hc
  rcases t with _ | ⟨b, Y⟩
  · rw [d12, if_pos hc2] at h; cases h
  · rw [d12, if_pos hc2] at h
    rcases hb : isDigitC b with _ | _ <;> rw [hb] at h <;> simp at h

theorem d12_transfer {f : List Char → List Char} (hf : PassP f) {q : List Char}
    (h : d12 q = none) : d12 (f q) = none := by
  rcases q with _ | ⟨c, t⟩
  · rw [hf.nil]; rfl
  · have hd := d12_none_head_false h
    have hhead : (f (c :: t)).head? = some c := by rw [hf.head]; rfl
    obtain ⟨t2, ht2⟩ := head_cons_of_head? hhead
    rw [ht2]
    exact d12_none_of_head hd


theorem d12Sep_second_fail {sep a b : Char} {X : List Char} (hb : isDigitC b = false)
    (hbne : b ≠ sep) : d12Sep sep (a :: b :: X) = none := by
  rcases X with _ | ⟨c, Z⟩ <;> simp [d12Sep, hb, hbne]

theorem space_not_digit : isDigitC ' ' = false := by decide

theorem timeTail2P_none_pass {f : List Char → List Char} (hf : PassP f) {q : List Char}
    (h : timeTail2P q = none) : timeTail2P (f q) = none := by
  rcases q with _ | ⟨a, t⟩
  · rw [hf.nil]; exact h
  by_cases ha : isDigitC a = true
  · have hane : a ≠ ':' := digit_ne ha colon_not_digit
    rw [hf.cons_ne a t hane]
    rcases t with _ | ⟨b, t2⟩
    · rw [hf.nil]; rfl
    by_cases hb : b = ':'
    · subst hb
      rw [timeTail2P, d12Sep_one ha colon_not_digit] at h
      dsimp only at h
      rcases hd3 : d12 t2 with _ | p
      · rcases hf.colon_shape t2 with hsh | ⟨u, hsh⟩
        · rw [hsh, timeTail2P, d12Sep_one ha colon_not_digit]
          dsimp only
          rw [d12_transfer hf hd3]
        · rw [hsh, timeTail2P, d12Sep_one ha colon_not_digit]
          dsimp only
          rw [d12_none_of_head space_not_digit]
      · rw [hd3] at h
        dsimp only at h
        cases h
    · by_cases hbd : isDigitC b = true
      · rw [hf.cons_ne b t2 hb]
        rcases t2 with _ | ⟨w, t3⟩
        · rw [hf.nil, timeTail2P]
          simp [d12Sep, hb]
        by_cases hw : w = ':'
        · subst hw
          rw [timeTail2P, d12Sep_two ha hbd] at h
          dsimp only at h
          rcases hd3 : d12 t3 with _ | p
          · rcases hf.colon_shape t3 with hsh | ⟨u, hsh⟩
            · rw [hsh, timeTail2P, d12Sep_two ha hbd]
              dsimp only
              rw [d12_transfer hf hd3]
            · rw [hsh, timeTail2P, d12Sep_two ha hbd]
              dsimp only
              rw [d12_none_of_head space_not_digit]
          · rw [hd3] at h
            dsimp only at h
            cases h
        · rw [hf.cons_ne w t3 hw, timeTail2P,
            d12Sep_digits_fail ha hbd hw colon_not_digit]
      · have hb2 : isDigitC b = false := by simpa using hbd
        obtain ⟨t3, ht3⟩ := head_cons_of_head?
          (show (f (b :: t2)).head? = some b by rw [hf.head]; rfl)
        rw [ht3, timeTail2P, d12Sep_second_fail hb2 hb]
  · have ha2 : isDigitC a = false := by simpa using ha
    obtain ⟨t2, ht2⟩ := head_cons_of_head?
      (show (f (a :: t)).head? = some a by rw [hf.head]; rfl)
    rw [ht2, timeTail2P, d12Sep_none_head ha2]

theorem tryTime_none_pass {f : List Char → List Char} (hf : PassP f) {r : List Char}
    (h : tryTime r = none) : tryTime (f r) = none := by
  rw [tryTime] at h ⊢
  rw [hf.dropSpace]
  rcases hr1 : r.dropWhile isJsSpace with _ | ⟨a, q⟩
  · rw [hf.nil]
    rfl
  rw [hr1] at h
  by_cases ha : isDigitC a = true
  · have hane : a ≠ ':' := digit_ne ha colon_not_digit
    rw [hf.cons_ne a q hane]
    rcases q with _ | ⟨b, q2⟩
    · rw [hf.nil]
      rfl
    by_cases hb : b = ':'
    · subst hb
      rw [d12Sep_one ha colon_not_digit] at h
      dsimp only at h
      rcases htt : timeTail2P q2 with _ | p
      · rcases hf.colon_shape q2 with hsh | ⟨u, hsh⟩
        · rw [hsh, d12Sep_one ha colon_not_digit]
          dsimp only
          rw [timeTail2P_none_pass hf htt]
        · rw [hsh, d12Sep_one ha colon_not_digit]
          dsimp only
          rw [timeTail2P, d12Sep_none_head space_not_digit]
      · rw [htt] at h
        dsimp only at h
        cases h
    · by_cases hbd : isDigitC b = true
      · rw [hf.cons_ne b q2 hb]
        rcases q2 with _ | ⟨w, q3⟩
        · rw [hf.nil]
          simp [d12Sep, hb]
        by_cases hw : w = ':'
        · subst hw
          rw [d12Sep_two ha hbd] at h
          dsimp only at h
          rcases htt : timeTail2P q3 with _ | p
          · rcases hf.colon_shape q3 with hsh | ⟨u, hsh⟩
            · rw [hsh, d12Sep_two ha hbd]
              dsimp only
              rw [timeTail2P_none_pass hf htt]
            · rw [hsh, d12Sep_two ha hbd]
              dsimp only
              rw [timeTail2P, d12Sep_none_head space_not_digit]
          · rw [htt] at h
            dsimp only at h
            cases h
        · rw [hf.cons_ne w q3 hw, d12Sep_digits_fail ha hbd hw colon_not_digit]
      · have hb2 : isDigitC b = false := by simpa using hbd
        obtain ⟨t3, ht3⟩ := head_cons_of_head?
          (show (f (b :: q2)).head? = some b by rw [hf.head]; rfl)
        rw [ht3, d12Sep_second_fail hb2 hb]
  · have ha2 : isDigitC a = false := by simpa using ha
    obtain ⟨t2, ht2⟩ := head_cons_of_head?
      (show (f (a :: q)).head? = some a by rw [hf.head]; rfl)
    rw [ht2, d12Sep_none_head ha2]


theorem timeClean_cons_ne {c : Char} (r : List Char) (h : c ≠ ':') :
    timeClean (c :: r) = timeClean r := by
  rw [timeClean]
  exact fun hc => h hc

theorem timeClean_colon (r : List Char) :
    timeClean (':' :: r) = ((tryTime r).isNone && timeClean r) := by
  rw [timeClean]

theorem litClean_cons_ne (lit : List Char) {c : Char} (r : List Char) (h : c ≠ ':') :
    litClean lit (c :: r) = litClean lit r := by
  rw [litClean]
  exact fun hc => h hc

theorem litClean_colon (lit : List Char) (r : List Char) :
    litClean lit (':' :: r) =
      ((match tryLit lit r with
        | some rest => decide (r = ' ' :: (lit ++ rest))
        | none => true) && litClean lit r) := by
  rw [litClean]

theorem numClean_cons_ne {c : Char} (r : List Char) (h : c ≠ ':') :
    numClean (c :: r) = numClean r := by
  rw [numClean]
  exact fun hc => h hc

theorem numClean_colon (r : List Char) :
    numClean (':' :: r) =
      ((match tryNum r with
        | some (ds, c, rest) => decide (r = ' ' :: (ds ++ (c :: rest)))
        | none => true) && numClean r) := by
  rw [numClean]

theorem timeClean_append {p : List Char} (q : List Char) (h : ∀ c ∈ p, c ≠ ':') :
    timeClean (p ++ q) = timeClean q := by
  induction p with
  | nil => rfl
  | cons a r ih =>
    rw [List.cons_append, timeClean_cons_ne _ (h a (by simp)),
      ih (fun c hc => h c (by simp [hc]))]

theorem litClean_append (lit : List Char) {p : List Char} (q : List Char)
    (h : ∀ c ∈ p, c ≠ ':') : litClean lit (p ++ q) = litClean lit q := by
  induction p with
  | nil => rfl
  | cons a r ih =>
    rw [List.cons_append, litClean_cons_ne lit _ (h a (by simp)),
      ih (fun c hc => h c (by simp [hc]))]

theorem numClean_append {p : List Char} (q : List Char) (h : ∀ c ∈ p, c ≠ ':') :
    numClean (p ++ q) = numClean q := by
  induction p with
  | nil => rfl
  | cons a r ih =>
    rw [List.cons_append, numClean_cons_ne _ (h a (by simp)),
      ih (fun c hc => h c (by simp [hc]))]

theorem timeClean_id {l : List Char} (h : timeClean l = true) : fixTime l = l := by
  induction l with
  | nil => rfl
  | cons c r ih =>
    by_cases hc : c = ':'
    · subst hc
      rw [timeClean_colon] at h
      obtain ⟨h1, h2⟩ := Bool.and_eq_true_iff.mp h
      rcases ht : tryTime r with _ | p
      · rw [fixTime_colon_none ht, ih h2]
      · rw [ht] at h1; cases h1
    · rw [fixTime_cons_ne r hc, ih (by rwa [timeClean_cons_ne r hc] at h)]

theorem litClean_id_aux (lit : List Char) (hlit : ∀ c ∈ lit, c ≠ ':') :
    ∀ (n : Nat) (l : List Char), l.length ≤ n → litClean lit l = true →
      fixLit lit l = l := by
  intro n
  induction n with
  | zero =>
    intro l hlen _
    rw [List.length_eq_zero.mp (Nat.le_zero.mp hlen)]
    rfl
  | succ m ih =>
    intro l hlen h
    rcases l with _ | ⟨c, r⟩
    · rfl
    by_cases hc : c = ':'
    · subst hc
      rw [litClean_colon] at h
      obtain ⟨h1, h2⟩ := Bool.and_eq_true_iff.mp h
      rcases ht : tryLit lit r with _ | rest
      · rw [fixLit_colon_none lit ht,
          ih r (by simpa using hlen) h2]
      · rw [ht] at h1
        have hcan : r = ' ' :: (lit ++ rest) := by
          simpa using h1
        have hrest_clean : litClean lit rest = true := by
          rw [hcan] at h2
          rw [show (' ' :: (lit ++ rest) : List Char) = (' ' :: lit) ++ rest by simp] at h2
          rwa [litClean_append lit rest
            (by intro c hc2
                rcases List.mem_cons.mp hc2 with rfl | hc3
                · decide
                · exact hlit c hc3)] at h2
        have hrlen : rest.length ≤ m := by
          have : r.length ≤ m := by simpa using hlen
          rw [hcan] at this
          simp at this
          omega
        rw [fixLit_colon_some lit ht, ih rest hrlen hrest_clean, hcan]
    · rw [fixLit_cons_ne lit r hc]
      rw [litClean_cons_ne lit r hc] at h
      rw [ih r (by simpa using hlen) h]

theorem litClean_id {lit : List Char} (hlit : ∀ c ∈ lit, c ≠ ':') {l : List Char}
    (h : litClean lit l = true) : fixLit lit l = l :=
  litClean_id_aux lit hlit l.length l le_rfl h

theorem numClean_id_aux :
    ∀ (n : Nat) (l : List Char), l.length ≤ n → numClean l = true → fixNum l = l := by
  intro n
  induction n with
  | zero =>
    intro l hlen _
    rw [List.length_eq_zero.mp (Nat.le_zero.mp hlen)]
    rfl
  | succ m ih =>
    intro l hlen h
    rcases l with _ | ⟨c, r⟩
    · rfl
    by_cases hc : c = ':'
    · subst hc
      rw [numClean_colon] at h
      obtain ⟨h1, h2⟩ := Bool.and_eq_true_iff.mp h
      rcases ht : tryNum r with _ | ⟨⟨ds, dc, rest⟩⟩
      · rw [fixNum_colon_none ht,
          ih r (by simpa using hlen) h2]
      · rw [ht] at h1
        have hcan : r = ' ' :: (ds ++ (dc :: rest)) := by simpa using h1
        obtain ⟨-, -, hdig, hdelim, -⟩ := tryNum_spec ht
        have hrest_clean : numClean rest = true := by
          rw [hcan] at h2
          rw [show (' ' :: (ds ++ (dc :: rest)) : List Char) =
            ((' ' :: ds) ++ [dc]) ++ rest by simp] at h2
          rwa [numClean_append rest
            (by intro c hc2
                simp at hc2
                rcases hc2 with hc2 | hc2 | hc2
                · subst hc2; decide
                · exact digit_ne (hdig c hc2) colon_not_digit
                · subst hc2
                  rcases hdelim with rfl | rfl <;> decide)] at h2
        have hrlen : rest.length ≤ m := by
          have : r.length ≤ m := by simpa using hlen
          rw [hcan] at this
          simp at this
          omega
        rw [fixNum_colon_some ht, ih rest hrlen hrest_clean, hcan]
    · rw [fixNum_cons_ne r hc]
      rw [numClean_cons_ne r hc] at h
      rw [ih r (by simpa using hlen) h]

theorem numClean_id {l : List Char} (h : numClean l = true) : fixNum l = l :=
  numClean_id_aux l.length l le_rfl h


theorem space_is_space : isJsSpace ' ' = true := by decide

theorem LitOK.head_not_space {lit : List Char} (h : LitOK lit) :
    ∀ c t, lit = c :: t → isJsSpace c = false := by
  intro c t he
  have := h.lower c (by simp [he])
  simp only [isJsSpace, decide_eq_false_iff_not]
  omega

theorem LitOK.head_not_digit {lit : List Char} (h : LitOK lit) :
    ∀ c t, lit = c :: t → isDigitC c = false := by
  intro c t he
  have := h.lower c (by simp [he])
  simp only [isDigitC, decide_eq_false_iff_not]
  omega

theorem isPrefixOf_self_append (lit y : List Char) : lit.isPrefixOf (lit ++ y) = true :=
  List.isPrefixOf_iff_prefix.mpr (List.prefix_append lit y)

/-- The canonical replaced form of a literal site parses back to exactly
the same decomposition. -/
theorem tryLit_canonical {lit : List Char} (hl : LitOK lit) (y : List Char)
    (hb : y = [] ∨ ∃ c t, y = c :: t ∧ isWordChar c = false) :
    tryLit lit (' ' :: (lit ++ y)) = some y := by
  rw [tryLit]
  have hdw : (' ' :: (lit ++ y)).dropWhile isJsSpace = lit ++ y := by
    rcases lit with _ | ⟨lc, lt⟩
    · exact absurd rfl hl.ne
    · rw [List.dropWhile_cons, if_pos (by simp [space_is_space]), List.cons_append,
        List.dropWhile_cons, if_neg (by simp [hl.head_not_space lc lt rfl])]
  rw [hdw, isPrefixOf_self_append]
  simp only [if_true]
  rw [List.drop_left]
  rcases hb with rfl | ⟨c, t, rfl, hw⟩
  · rfl
  · dsimp only
    rw [if_neg (by simp [hw])]

theorem takeWhile_digits_append {ds : List Char} {c : Char} (y : List Char)
    (hds : ∀ x ∈ ds, isDigitC x = true) (hc : isDigitC c = false) :
    (ds ++ c :: y).takeWhile isDigitC = ds := by
  induction ds with
  | nil => simp [List.takeWhile_cons, hc]
  | cons a r ih =>
    rw [List.cons_append, List.takeWhile_cons, hds a (by simp)]
    simp only [List.cons.injEq, true_and]
    simpa using ih (fun x hx => hds x (by simp [hx]))

/-- The canonical replaced form of a numeric site parses back to exactly
the same decomposition. -/
theorem tryNum_canonical {ds : List Char} {c : Char} (y : List Char) (hne : ds ≠ [])
    (hds : ∀ x ∈ ds, isDigitC x = true) (hcd : isDigitC c = false)
    (hdelim : c = ',' ∨ c = '\x7d') :
    tryNum (' ' :: (ds ++ c :: y)) = some (ds, c, y) := by
  rw [tryNum]
  have hdw : (' ' :: (ds ++ c :: y)).dropWhile isJsSpace = ds ++ c :: y := by
    rcases ds with _ | ⟨d0, dt⟩
    · exact absurd rfl hne
    · rw [List.dropWhile_cons, if_pos (by simp [space_is_space]), List.cons_append,
        List.dropWhile_cons, if_neg (by simp [digit_not_space (hds d0 (by simp))])]
  rw [hdw, takeWhile_digits_append y hds hcd, if_neg (by simp [hne]), List.drop_left]
  dsimp only
  rw [if_pos hdelim]

theorem litClean_fixLit_aux {lit : List Char} (hl : LitOK lit) :
    ∀ (n : Nat) (l : List Char), l.length ≤ n → litClean lit (fixLit lit l) = true := by
  intro n
  induction n with
  | zero =>
    intro l hlen
    rw [List.length_eq_zero.mp (Nat.le_zero.mp hlen)]
    rfl
  | succ m ih =>
    intro l hlen
    rcases l with _ | ⟨c, r⟩
    · rfl
    by_cases hc : c = ':'
    · subst hc
      rcases ht : tryLit lit r with _ | rest
      · rw [fixLit_colon_none lit ht, litClean_colon,
          tryLit_pass (passP_fixLit lit) hl, ht]
        simpa using ih r (by simpa using hlen)
      · obtain ⟨hdec, hbound⟩ := tryLit_spec ht
        have hstep : fixLit lit (':' :: r) = ':' :: (' ' :: (lit ++ fixLit lit rest)) :=
          fixLit_colon_some lit ht
        rw [hstep, litClean_colon]
        have hbound2 : fixLit lit rest = [] ∨
            ∃ c2 t2, fixLit lit rest = c2 :: t2 ∧ isWordChar c2 = false := by
          rcases hbound with rfl | ⟨c2, t2, rfl, hw⟩
          · exact Or.inl rfl
          · obtain ⟨t3, ht3⟩ := head_cons_of_head?
              (show (fixLit lit (c2 :: t2)).head? = some c2 by
                rw [(passP_fixLit lit).head]; rfl)
            exact Or.inr ⟨c2, t3, ht3, hw⟩
        rw [tryLit_canonical hl (fixLit lit rest) hbound2]
        have hrlen : rest.length ≤ m := by
          have hrm : r.length ≤ m := by simpa using hlen
          rw [hdec] at hrm
          simp at hrm
          omega
        have hclean : litClean lit (fixLit lit rest) = true := ih rest hrlen
        have hskip : litClean lit (' ' :: (lit ++ fixLit lit rest)) =
            litClean lit (fixLit lit rest) := by
          rw [show (' ' :: (lit ++ fixLit lit rest) : List Char) =
            (' ' :: lit) ++ fixLit lit rest by simp]
          exact litClean_append lit _
            (by intro c2 hc2
                rcases List.mem_cons.mp hc2 with rfl | hc3
                · decide
                · exact hl.no_colon c2 hc3)
        rw [hskip, hclean]
        simp
    · rw [fixLit_cons_ne lit r hc, litClean_cons_ne lit _ hc]
      exact ih r (by simpa using hlen)

theorem litClean_fixLit {lit : List Char} (hl : LitOK lit) (l : List Char) :
    litClean lit (fixLit lit l) = true :=
  litClean_fixLit_aux hl l.length l le_rfl

theorem numClean_fixNum_aux :
    ∀ (n : Nat) (l : List Char), l.length ≤ n → numClean (fixNum l) = true := by
  intro n
  induction n with
  | zero =>
    intro l hlen
    rw [List.length_eq_zero.mp (Nat.le_zero.mp hlen)]
    rfl
  | succ m ih =>
    intro l hlen
    rcases l with _ | ⟨c, r⟩
    · rfl
    by_cases hc : c = ':'
    · subst hc
      rcases ht : tryNum r with _ | ⟨⟨ds, dc, rest⟩⟩
      · rw [fixNum_colon_none ht, numClean_colon, tryNum_pass passP_fixNum, ht]
        simpa using ih r (by simpa using hlen)
      · obtain ⟨hdec, hne, hdig, hdelim, hcd⟩ := tryNum_spec ht
        have hstep : fixNum (':' :: r) = ':' :: (' ' :: (ds ++ dc :: fixNum rest)) :=
          fixNum_colon_some ht
        rw [hstep, numClean_colon]
        rw [tryNum_canonical (fixNum rest) hne hdig hcd hdelim]
        have hrlen : rest.length ≤ m := by
          have hrm : r.length ≤ m := by simpa using hlen
          rw [hdec] at hrm
          simp at hrm
          omega
        have hclean : numClean (fixNum rest) = true := ih rest hrlen
        have hskip : numClean (' ' :: (ds ++ dc :: fixNum rest)) =
            numClean (fixNum rest) := by
          rw [show (' ' :: (ds ++ dc :: fixNum rest) : List Char) =
            ((' ' :: ds) ++ [dc]) ++ fixNum rest by simp]
          exact numClean_append _
            (by intro c2 hc2
                simp at hc2
                rcases hc2 with hc2 | hc2 | hc2
                · subst hc2; decide
                · exact digit_ne (hdig c2 hc2) colon_not_digit
                · subst hc2
                  rcases hdelim with rfl | rfl <;> decide)
        rw [hskip, hclean]
        simp
    · rw [fixNum_cons_ne r hc, numClean_cons_ne _ hc]
      exact ih r (by simpa using hlen)

theorem numClean_fixNum (l : List Char) : numClean (fixNum l) = true :=
  numClean_fixNum_aux l.length l le_rfl


theorem d12Sep_exact {sep : Char} (hs : isDigitC sep = false) {c : List Char}
    (y : List Char) (hne : c ≠ []) (hlen : c.length ≤ 2)
    (hd : ∀ x ∈ c, isDigitC x = true) : d12Sep sep (c ++ (sep :: y)) = some (c, y) := by
  rcases c with _ | ⟨a, c1⟩
  · exact absurd rfl hne
  rcases c1 with _ | ⟨b, c2⟩
  · exact d12Sep_one (hd a (by simp)) hs
  rcases c2 with _ | ⟨w, c3⟩
  · exact d12Sep_two (hd a (by simp)) (hd b (by simp))
  · simp at hlen

theorem dropWhile_space_digit_head {c : List Char} (y : List Char) (hne : c ≠ [])
    (hd : ∀ x ∈ c, isDigitC x = true) :
    (c ++ y).dropWhile isJsSpace = c ++ y := by
  rcases c with _ | ⟨a, c1⟩
  · exact absurd rfl hne
  rw [List.cons_append, List.dropWhile_cons,
    if_neg (by simp [digit_not_space (hd a (by simp))])]

theorem timeClean_fixTime_aux :
    ∀ (n : Nat) (l : List Char), l.length ≤ n → timeClean (fixTime l) = true := by
  intro n
  induction n with
  | zero =>
    intro l hlen
    rw [List.length_eq_zero.mp (Nat.le_zero.mp hlen)]
    rfl
  | succ m ih =>
    intro l hlen
    rcases l with _ | ⟨c, r⟩
    · rfl
    by_cases hc : c = ':'
    · subst hc
      rcases ht : tryTime r with _ | ⟨⟨c1, c2, c3, rest⟩⟩
      · rw [fixTime_colon_none ht, timeClean_colon,
          tryTime_none_pass passP_fixTime ht]
        simpa using ih r (by simpa using hlen)
      · obtain ⟨hdec, hws, hn1, hl1, hd1, hn2, hl2, hd2, hn3, hl3, hd3⟩ := tryTime_spec ht
        have hstep := fixTime_colon_some ht
        rw [hstep, timeClean_colon]
        have hrlen : rest.length ≤ m := by
          have hrm : r.length ≤ m := by simpa using hlen
          have := congrArg List.length hdec
          simp at this
          omega
        -- the freshly quoted site is time-inactive
        have hfac1 : tryTime (' ' :: '"' :: (c1 ++ (':' :: (c2 ++ (':' :: (c3 ++ ('"' ::
            fixTime rest))))))) = none := by
          rw [tryTime, List.dropWhile_cons, if_pos (by simp [space_is_space]),
            List.dropWhile_cons, if_neg (by decide),
            d12Sep_none_head (show isDigitC '"' = false by decide)]
        rw [hfac1]
        -- walk the emitted region
        have hskip1 : ∀ z : List Char, timeClean (' ' :: '"' :: z) = timeClean z := by
          intro z
          rw [timeClean_cons_ne _ (by decide), timeClean_cons_ne _ (by decide)]
        rw [hskip1]
        rw [timeClean_append _ (fun x hx => digit_ne (hd1 x hx) colon_not_digit)]
        rw [timeClean_colon]
        have hfac2 : tryTime (c2 ++ (':' :: (c3 ++ ('"' :: fixTime rest)))) = none := by
          rw [tryTime, dropWhile_space_digit_head _ hn2 hd2,
            d12Sep_exact colon_not_digit _ hn2 hl2 hd2]
          dsimp only
          rw [timeTail2P,
            d12Sep_max_digits_fail hn3 hd3 (by decide) (by decide) colon_not_digit]
        rw [hfac2]
        rw [timeClean_append _ (fun x hx => digit_ne (hd2 x hx) colon_not_digit)]
        rw [timeClean_colon]
        have hfac3 : tryTime (c3 ++ ('"' :: fixTime rest)) = none := by
          rw [tryTime, dropWhile_space_digit_head _ hn3 hd3,
            d12Sep_max_digits_fail hn3 hd3 (by decide) (by decide) colon_not_digit]
        rw [hfac3]
        rw [timeClean_append _ (fun x hx => digit_ne (hd3 x hx) colon_not_digit)]
        rw [timeClean_cons_ne _ (by decide)]
        simpa using ih rest hrlen
    · rw [fixTime_cons_ne r hc, timeClean_cons_ne _ hc]
      exact ih r (by simpa using hlen)

theorem timeClean_fixTime (l : List Char) : timeClean (fixTime l) = true :=
  timeClean_fixTime_aux l.length l le_rfl


theorem tryLit_some_dropWhile {lit r rest : List Char} (h : tryLit lit r = some rest) :
    r.dropWhile isJsSpace = lit ++ rest := by
  rw [tryLit] at h
  split at h
  · rename_i hpre
    have hr1 := isPrefixOf_append hpre
    split at h
    · rename_i hdrop
      injection h with h1
      subst h1
      rw [hr1, hdrop]
    · split at h
      · cases h
      · injection h with h1
        subst h1
        rename_i hdrop _
        rw [hr1, hdrop]
  · cases h

theorem tryNum_some_dropWhile {r ds rest : List Char} {c : Char}
    (h : tryNum r = some (ds, c, rest)) :
    r.dropWhile isJsSpace = ds ++ c :: rest := by
  rw [tryNum] at h
  split at h
  · cases h
  · rename_i hds
    split at h
    · rename_i c2 rest2 hdrop
      split at h
      · cases h
        conv_lhs =>
          rw [← List.takeWhile_append_dropWhile isDigitC (r.dropWhile isJsSpace)]
        rw [dropWhile_eq_drop_takeWhile isDigitC (r.dropWhile isJsSpace), hdrop]
      · cases h
    · cases h

theorem space_ne_colon {c : Char} (h : isJsSpace c = true) : c ≠ ':' := by
  intro he
  subst he
  rw [colon_not_space] at h
  cases h

theorem isPrefixOf_ne_heads {a b : Char} {t1 z : List Char} (h : a ≠ b) :
    (a :: t1).isPrefixOf (b :: z) = false := by
  simp [List.isPrefixOf_cons₂, h]

theorem LitOK.head_ne_digit {lit : List Char} (hl : LitOK lit) {lc : Char}
    {lt : List Char} (he : lit = lc :: lt) {d : Char} (hd : isDigitC d = true) :
    lc ≠ d := by
  intro hcontra
  subst hcontra
  have h1 := hl.lower lc (by simp [he])
  simp only [isDigitC, decide_eq_true_eq] at hd
  omega

theorem timeClean_pres_fixLit {lit : List Char} (hl : LitOK lit) :
    ∀ (n : Nat) (l : List Char), l.length ≤ n → timeClean l = true →
      timeClean (fixLit lit l) = true := by
  intro n
  induction n with
  | zero =>
    intro l hlen _
    rw [List.length_eq_zero.mp (Nat.le_zero.mp hlen)]
    rfl
  | succ m ih =>
    intro l hlen h
    rcases l with _ | ⟨c, r⟩
    · rfl
    by_cases hc : c = ':'
    · subst hc
      rw [timeClean_colon] at h
      obtain ⟨h1, h2⟩ := Bool.and_eq_true_iff.mp h
      have htnone : tryTime r = none := by
        rcases ht : tryTime r with _ | p
        · rfl
        · rw [ht] at h1; cases h1
      rcases hlit2 : tryLit lit r with _ | rest
      · rw [fixLit_colon_none lit hlit2, timeClean_colon,
          tryTime_none_pass (passP_fixLit lit) htnone]
        simpa using ih r (by simpa using hlen) h2
      · obtain ⟨hdec, -⟩ := tryLit_spec hlit2
        rw [fixLit_colon_some lit hlit2, timeClean_colon]
        rcases hle : lit with _ | ⟨lc, lt⟩
        · exact absurd hle hl.ne
        rw [← hle]
        have hfac : tryTime (' ' :: (lit ++ fixLit lit rest)) = none := by
          rw [tryTime, List.dropWhile_cons, if_pos (by simp [space_is_space]), hle,
            List.cons_append, List.dropWhile_cons,
            if_neg (by simp [hl.head_not_space lc lt hle]),
            d12Sep_none_head (hl.head_not_digit lc lt hle)]
        rw [hfac]
        have hrest : timeClean rest = true := by
          rw [hdec] at h2
          rw [show (r.takeWhile isJsSpace ++ (lit ++ rest) : List Char) =
            (r.takeWhile isJsSpace ++ lit) ++ rest by simp] at h2
          rwa [timeClean_append rest
            (by intro x hx
                rcases List.mem_append.mp hx with hx2 | hx2
                · exact space_ne_colon (takeWhile_all_space r x hx2)
                · exact hl.no_colon x hx2)] at h2
        have hrlen : rest.length ≤ m := by
          have hrm : r.length ≤ m := by simpa using hlen
          have := congrArg List.length hdec
          simp at this
          omega
        have hskip : timeClean (' ' :: (lit ++ fixLit lit rest)) =
            timeClean (fixLit lit rest) := by
          rw [show (' ' :: (lit ++ fixLit lit rest) : List Char) =
            (' ' :: lit) ++ fixLit lit rest by simp]
          exact timeClean_append _
            (by intro x hx
                rcases List.mem_cons.mp hx with rfl | hx2
                · decide
                · exact hl.no_colon x hx2)
        rw [hskip]
        simpa using ih rest hrlen hrest
    · rw [fixLit_cons_ne lit r hc, timeClean_cons_ne _ hc]
      rw [timeClean_cons_ne _ hc] at h
      exact ih r (by simpa using hlen) h

theorem timeClean_pres_fixNum :
    ∀ (n : Nat) (l : List Char), l.length ≤ n → timeClean l = true →
      timeClean (fixNum l) = true := by
  intro n
  induction n with
  | zero =>
    intro l hlen _
    rw [List.length_eq_zero.mp (Nat.le_zero.mp hlen)]
    rfl
  | succ m ih =>
    intro l hlen h
    rcases l with _ | ⟨c, r⟩
    · rfl
    by_cases hc : c = ':'
    · subst hc
      rw [timeClean_colon] at h
      obtain ⟨h1, h2⟩ := Bool.and_eq_true_iff.mp h
      have htnone : tryTime r = none := by
        rcases ht : tryTime r with _ | p
        · rfl
        · rw [ht] at h1; cases h1
      rcases hnum : tryNum r with _ | ⟨⟨ds, dc, rest⟩⟩
      · rw [fixNum_colon_none hnum, timeClean_colon,
          tryTime_none_pass passP_fixNum htnone]
        simpa using ih r (by simpa using hlen) h2
      · obtain ⟨hdec, hne, hdig, hdelim, hcd⟩ := tryNum_spec hnum
        rw [fixNum_colon_some hnum, timeClean_colon]
        have hdcc : dc ≠ ':' := by rcases hdelim with rfl | rfl <;> decide
        have hfac : tryTime (' ' :: (ds ++ dc :: fixNum rest)) = none := by
          rw [tryTime, List.dropWhile_cons, if_pos (by simp [space_is_space]),
            dropWhile_space_digit_head _ hne hdig,
            d12Sep_max_digits_fail hne hdig hdcc hcd colon_not_digit]
        rw [hfac]
        have hrest : timeClean rest = true := by
          rw [hdec] at h2
          rw [show (r.takeWhile isJsSpace ++ (ds ++ dc :: rest) : List Char) =
            ((r.takeWhile isJsSpace ++ ds) ++ [dc]) ++ rest by simp] at h2
          rwa [timeClean_append rest
            (by intro x hx
                simp at hx
                rcases hx with hx2 | hx2 | hx2
                · exact space_ne_colon (takeWhile_all_space r x hx2)
                · exact digit_ne (hdig x hx2) colon_not_digit
                · subst hx2; exact hdcc)] at h2
        have hrlen : rest.length ≤ m := by
          have hrm : r.length ≤ m := by simpa using hlen
          have := congrArg List.length hdec
          simp at this
          omega
        have hskip : timeClean (' ' :: (ds ++ dc :: fixNum rest)) =
            timeClean (fixNum rest) := by
          rw [show (' ' :: (ds ++ dc :: fixNum rest) : List Char) =
            ((' ' :: ds) ++ [dc]) ++ fixNum rest by simp]
          exact timeClean_append _
            (by intro x hx
                simp at hx
                rcases hx with hx2 | hx2 | hx2
                · subst hx2; decide
                · exact digit_ne (hdig x hx2) colon_not_digit
                · subst hx2; exact hdcc)
        rw [hskip]
        simpa using ih rest hrlen hrest
    · rw [fixNum_cons_ne r hc, timeClean_cons_ne _ hc]
      rw [timeClean_cons_ne _ hc] at h
      exact ih r (by simpa using hlen) h


theorem dropWhile_space_lit {lit : List Char} (hl : LitOK lit) (y : List Char) :
    (' ' :: (lit ++ y)).dropWhile isJsSpace = lit ++ y := by
  rcases hls : lit with _ | ⟨lc, lt⟩
  · exact absurd hls hl.ne
  rw [← hls]
  rw [List.dropWhile_cons, if_pos (by simp [space_is_space]), hls, List.cons_append,
    List.dropWhile_cons, if_neg (by simp [hl.head_not_space lc lt hls]), ← List.cons_append,
    ← hls]

theorem tryLit_none_of_not_prefix {lit r : List Char}
    (h : lit.isPrefixOf (r.dropWhile isJsSpace) = false) : tryLit lit r = none := by
  simp only [tryLit]
  rw [h]
  simp

theorem litClean_pres_fixLit {lit1 lit2 : List Char} (h1ok : LitOK lit1)
    (h2ok : LitOK lit2)
    (hhd : ∀ a t1 b t2, lit1 = a :: t1 → lit2 = b :: t2 → a ≠ b) :
    ∀ (n : Nat) (l : List Char), l.length ≤ n → litClean lit1 l = true →
      litClean lit1 (fixLit lit2 l) = true := by
  intro n
  induction n with
  | zero =>
    intro l hlen _
    rw [List.length_eq_zero.mp (Nat.le_zero.mp hlen)]
    rfl
  | succ m ih =>
    intro l hlen h
    rcases l with _ | ⟨c, r⟩
    · rfl
    by_cases hc : c = ':'
    · subst hc
      rw [litClean_colon] at h
      obtain ⟨hfac, h2⟩ := Bool.and_eq_true_iff.mp h
      rcases hlit2 : tryLit lit2 r with _ | rest2
      · -- the other literal does not rewrite at this colon
        rw [fixLit_colon_none lit2 hlit2, litClean_colon,
          tryLit_pass (passP_fixLit lit2) h1ok]
        rcases hlit1 : tryLit lit1 r with _ | rest1
        · simpa using ih r (by simpa using hlen) h2
        · rw [hlit1] at hfac
          rw [show Option.map (fixLit lit2) (some rest1) = some (fixLit lit2 rest1) from rfl]
          dsimp only
          have hcan : r = ' ' :: (lit1 ++ rest1) := by simpa using hfac
          have hfix : fixLit lit2 r = ' ' :: (lit1 ++ fixLit lit2 rest1) := by
            conv_lhs => rw [hcan]
            rw [show (' ' :: (lit1 ++ rest1) : List Char) =
              (' ' :: lit1) ++ rest1 by simp]
            rw [(passP_fixLit lit2).copy rest1
              (by intro x hx
                  rcases List.mem_cons.mp hx with rfl | hx2
                  · decide
                  · exact h1ok.no_colon x hx2)]
            simp
          rw [hfix]
          have hrest1_clean : litClean lit1 rest1 = true := by
            rw [hcan] at h2
            rw [show (' ' :: (lit1 ++ rest1) : List Char) =
              (' ' :: lit1) ++ rest1 by simp] at h2
            rwa [litClean_append lit1 rest1
              (by intro x hx
                  rcases List.mem_cons.mp hx with rfl | hx2
                  · decide
                  · exact h1ok.no_colon x hx2)] at h2
          have hrlen : rest1.length ≤ m := by
            have hrm : r.length ≤ m := by simpa using hlen
            have := congrArg List.length hcan
            simp at this
            omega
          have hclean := ih rest1 hrlen hrest1_clean
          have hskip : litClean lit1 (' ' :: (lit1 ++ fixLit lit2 rest1)) =
              litClean lit1 (fixLit lit2 rest1) := by
            rw [show (' ' :: (lit1 ++ fixLit lit2 rest1) : List Char) =
              (' ' :: lit1) ++ fixLit lit2 rest1 by simp]
            exact litClean_append lit1 _
              (by intro x hx
                  rcases List.mem_cons.mp hx with rfl | hx2
                  · decide
                  · exact h1ok.no_colon x hx2)
          rw [hskip, hclean]
          simp
      · -- the other literal rewrites at this colon
        obtain ⟨hdec2, -⟩ := tryLit_spec hlit2
        obtain ⟨b2, t2, hl2s⟩ := List.exists_cons_of_ne_nil h2ok.ne
        obtain ⟨a1, t1, hl1s⟩ := List.exists_cons_of_ne_nil h1ok.ne
        have hne12 : a1 ≠ b2 := hhd a1 t1 b2 t2 hl1s hl2s
        rw [fixLit_colon_some lit2 hlit2, litClean_colon]
        have hpf : lit1.isPrefixOf (lit2 ++ fixLit lit2 rest2) = false := by
          rw [hl1s, hl2s, List.cons_append]
          exact isPrefixOf_ne_heads hne12
        have hfac2 : tryLit lit1 (' ' :: (lit2 ++ fixLit lit2 rest2)) = none := by
          refine tryLit_none_of_not_prefix ?_
          rw [dropWhile_space_lit h2ok, hpf]
        rw [hfac2]
        have hrest2_clean : litClean lit1 rest2 = true := by
          rw [hdec2] at h2
          rw [show (r.takeWhile isJsSpace ++ (lit2 ++ rest2) : List Char) =
            (r.takeWhile isJsSpace ++ lit2) ++ rest2 by simp] at h2
          rwa [litClean_append lit1 rest2
            (by intro x hx
                rcases List.mem_append.mp hx with hx2 | hx2
                · exact space_ne_colon (takeWhile_all_space r x hx2)
                · exact h2ok.no_colon x hx2)] at h2
        have hrlen : rest2.length ≤ m := by
          have hrm : r.length ≤ m := by simpa using hlen
          have := congrArg List.length hdec2
          simp at this
          omega
        have hskip : litClean lit1 (' ' :: (lit2 ++ fixLit lit2 rest2)) =
            litClean lit1 (fixLit lit2 rest2) := by
          rw [show (' ' :: (lit2 ++ fixLit lit2 rest2) : List Char) =
            (' ' :: lit2) ++ fixLit lit2 rest2 by simp]
          exact litClean_append lit1 _
            (by intro x hx
                rcases List.mem_cons.mp hx with rfl | hx2
                · decide
                · exact h2ok.no_colon x hx2)
        rw [hskip]
        simpa using ih rest2 hrlen hrest2_clean
    · rw [fixLit_cons_ne lit2 r hc, litClean_cons_ne lit1 _ hc]
      rw [litClean_cons_ne lit1 _ hc] at h
      exact ih r (by simpa using hlen) h


theorem litClean_pres_fixNum {lit : List Char} (hlok : LitOK lit) :
    ∀ (n : Nat) (l : List Char), l.length ≤ n → litClean lit l = true →
      litClean lit (fixNum l) = true := by
  intro n
  induction n with
  | zero =>
    intro l hlen _
    rw [List.length_eq_zero.mp (Nat.le_zero.mp hlen)]
    rfl
  | succ m ih =>
    intro l hlen h
    rcases l with _ | ⟨c, r⟩
    · rfl
    by_cases hc : c = ':'
    · subst hc
      rw [litClean_colon] at h
      obtain ⟨hfac, h2⟩ := Bool.and_eq_true_iff.mp h
      rcases hnum : tryNum r with _ | ⟨⟨ds, dc, rest2⟩⟩
      · rw [fixNum_colon_none hnum, litClean_colon, tryLit_pass passP_fixNum hlok]
        rcases hlit1 : tryLit lit r with _ | rest1
        · simpa using ih r (by simpa using hlen) h2
        · rw [hlit1] at hfac
          rw [show Option.map fixNum (some rest1) = some (fixNum rest1) from rfl]
          dsimp only
          have hcan : r = ' ' :: (lit ++ rest1) := by simpa using hfac
          have hfix : fixNum r = ' ' :: (lit ++ fixNum rest1) := by
            conv_lhs => rw [hcan]
            rw [show (' ' :: (lit ++ rest1) : List Char) = (' ' :: lit) ++ rest1 by simp]
            rw [passP_fixNum.copy rest1
              (by intro x hx
                  rcases List.mem_cons.mp hx with rfl | hx2
                  · decide
                  · exact hlok.no_colon x hx2)]
            simp
          rw [hfix]
          have hrest1_clean : litClean lit rest1 = true := by
            rw [hcan] at h2
            rw [show (' ' :: (lit ++ rest1) : List Char) = (' ' :: lit) ++ rest1 by simp] at h2
            rwa [litClean_append lit rest1
              (by intro x hx
                  rcases List.mem_cons.mp hx with rfl | hx2
                  · decide
                  · exact hlok.no_colon x hx2)] at h2
          have hrlen : rest1.length ≤ m := by
            have hrm : r.length ≤ m := by simpa using hlen
            have := congrArg List.length hcan
            simp at this
            omega
          have hskip : litClean lit (' ' :: (lit ++ fixNum rest1)) =
              litClean lit (fixNum rest1) := by
            rw [show (' ' :: (lit ++ fixNum rest1) : List Char) =
              (' ' :: lit) ++ fixNum rest1 by simp]
            exact litClean_append lit _
              (by intro x hx
                  rcases List.mem_cons.mp hx with rfl | hx2
                  · decide
                  · exact hlok.no_colon x hx2)
          rw [hskip, ih rest1 hrlen hrest1_clean]
          simp
      · obtain ⟨hdec, hne, hdig, hdelim, hcd⟩ := tryNum_spec hnum
        obtain ⟨a1, t1, hl1s⟩ := List.exists_cons_of_ne_nil hlok.ne
        obtain ⟨d0, dt, hdss⟩ := List.exists_cons_of_ne_nil hne
        have hdcc : dc ≠ ':' := by rcases hdelim with rfl | rfl <;> decide
        rw [fixNum_colon_some hnum, litClean_colon]
        have hpf : lit.isPrefixOf (ds ++ dc :: fixNum rest2) = false := by
          rw [hl1s, hdss, List.cons_append]
          exact isPrefixOf_ne_heads
            (hlok.head_ne_digit hl1s (hdig d0 (by rw [hdss]; simp)))
        have hfac2 : tryLit lit (' ' :: (ds ++ dc :: fixNum rest2)) = none := by
          refine tryLit_none_of_not_prefix ?_
          rw [List.dropWhile_cons, if_pos (by simp [space_is_space]),
            dropWhile_space_digit_head _ hne hdig, hpf]
        rw [hfac2]
        have hrest2_clean : litClean lit rest2 = true := by
          rw [hdec] at h2
          rw [show (r.takeWhile isJsSpace ++ (ds ++ dc :: rest2) : List Char) =
            ((r.takeWhile isJsSpace ++ ds) ++ [dc]) ++ rest2 by simp] at h2
          rwa [litClean_append lit rest2
            (by intro x hx
                simp at hx
                rcases hx with hx2 | hx2 | hx2
                · exact space_ne_colon (takeWhile_all_space r x hx2)
                · exact digit_ne (hdig x hx2) colon_not_digit
                · subst hx2; exact hdcc)] at h2
        have hrlen : rest2.length ≤ m := by
          have hrm : r.length ≤ m := by simpa using hlen
          have := congrArg List.length hdec
          simp at this
          omega
        have hskip : litClean lit (' ' :: (ds ++ dc :: fixNum rest2)) =
            litClean lit (fixNum rest2) := by
          rw [show (' ' :: (ds ++ dc :: fixNum rest2) : List Char) =
            ((' ' :: ds) ++ [dc]) ++ fixNum rest2 by simp]
          exact litClean_append lit _
            (by intro x hx
                simp at hx
                rcases hx with hx2 | hx2 | hx2
                · subst hx2; decide
                · exact digit_ne (hdig x hx2) colon_not_digit
                · subst hx2; exact hdcc)
        rw [hskip]
        simpa using ih rest2 hrlen hrest2_clean
    · rw [fixNum_cons_ne r hc, litClean_cons_ne lit _ hc]
      rw [litClean_cons_ne lit _ hc] at h
      exact ih r (by simpa using hlen) h


theorem fixTime_forall_pres (P : Char → Prop) (hc1 : P ':') (hc2 : P ' ')
    (hc3 : P '"') (hcd : ∀ d, isDigitC d = true → P d) :
    ∀ (n : Nat) (l : List Char), l.length ≤ n → (∀ c ∈ l, P c) →
      ∀ c ∈ fixTime l, P c := by
  intro n
  induction n with
  | zero =>
    intro l hlen _
    rw [List.length_eq_zero.mp (Nat.le_zero.mp hlen)]
    intro c hc
    cases hc
  | succ m ih =>
    intro l hlen h
    rcases l with _ | ⟨c0, r⟩
    · intro c hc; cases hc
    by_cases hc : c0 = ':'
    · subst hc
      rcases ht : tryTime r with _ | ⟨⟨c1, c2, c3, rest⟩⟩
      · rw [fixTime_colon_none ht]
        intro c hcm
        rcases List.mem_cons.mp hcm with rfl | hcm2
        · exact hc1
        · exact ih r (by simpa using hlen) (fun x hx => h x (by simp [hx])) c hcm2
      · obtain ⟨hdec, -, -, -, hd1, -, -, hd2, -, -, hd3⟩ := tryTime_spec ht
        have hrlen : rest.length ≤ m := by
          have hrm : r.length ≤ m := by simpa using hlen
          have := congrArg List.length hdec
          simp at this
          omega
        have hrest : ∀ c ∈ rest, P c := by
          intro c hcm
          refine h c ?_
          rw [List.mem_cons, hdec]
          simp [hcm]
        rw [fixTime_colon_some ht]
        intro c hcm
        simp only [List.mem_cons, List.mem_append] at hcm
        rcases hcm with rfl | rfl | rfl | hcm | rfl | hcm | rfl | hcm | rfl | hcm
        · exact hc1
        · exact hc2
        · exact hc3
        · exact hcd c (hd1 c hcm)
        · exact hc1
        · exact hcd c (hd2 c hcm)
        · exact hc1
        · exact hcd c (hd3 c hcm)
        · exact hc3
        · exact ih rest hrlen hrest c hcm
    · rw [fixTime_cons_ne r hc]
      intro c hcm
      rcases List.mem_cons.mp hcm with rfl | hcm2
      · exact h c (by simp)
      · exact ih r (by simpa using hlen) (fun x hx => h x (by simp [hx])) c hcm2

theorem fixLit_forall_pres {lit : List Char} (P : Char → Prop) (hc1 : P ':')
    (hc2 : P ' ') (hlitP : ∀ x ∈ lit, P x) :
    ∀ (n : Nat) (l : List Char), l.length ≤ n → (∀ c ∈ l, P c) →
      ∀ c ∈ fixLit lit l, P c := by
  intro n
  induction n with
  | zero =>
    intro l hlen _
    rw [List.length_eq_zero.mp (Nat.le_zero.mp hlen)]
    intro c hc
    cases hc
  | succ m ih =>
    intro l hlen h
    rcases l with _ | ⟨c0, r⟩
    · intro c hc; cases hc
    by_cases hc : c0 = ':'
    · subst hc
      rcases ht : tryLit lit r with _ | rest
      · rw [fixLit_colon_none lit ht]
        intro c hcm
        rcases List.mem_cons.mp hcm with rfl | hcm2
        · exact hc1
        · exact ih r (by simpa using hlen) (fun x hx => h x (by simp [hx])) c hcm2
      · obtain ⟨hdec, -⟩ := tryLit_spec ht
        have hrlen : rest.length ≤ m := by
          have hrm : r.length ≤ m := by simpa using hlen
          have := congrArg List.length hdec
          simp at this
          omega
        have hrest : ∀ c ∈ rest, P c := by
          intro c hcm
          refine h c ?_
          rw [List.mem_cons, hdec]
          simp [hcm]
        rw [fixLit_colon_some lit ht]
        intro c hcm
        simp only [List.mem_cons, List.mem_append] at hcm
        rcases hcm with rfl | rfl | hcm | hcm
        · exact hc1
        · exact hc2
        · exact hlitP c hcm
        · exact ih rest hrlen hrest c hcm
    · rw [fixLit_cons_ne lit r hc]
      intro c hcm
      rcases List.mem_cons.mp hcm with rfl | hcm2
      · exact h c (by simp)
      · exact ih r (by simpa using hlen) (fun x hx => h x (by simp [hx])) c hcm2

theorem fixNum_forall_pres (P : Char → Prop) (hc1 : P ':') (hc2 : P ' ')
    (hcd : ∀ d, isDigitC d = true → P d) (hcc : P ',') (hcb : P '\x7d') :
    ∀ (n : Nat) (l : List Char), l.length ≤ n → (∀ c ∈ l, P c) →
      ∀ c ∈ fixNum l, P c := by
  intro n
  induction n with
  | zero =>
    intro l hlen _
    rw [List.length_eq_zero.mp (Nat.le_zero.mp hlen)]
    intro c hc
    cases hc
  | succ m ih =>
    intro l hlen h
    rcases l with _ | ⟨c0, r⟩
    · intro c hc; cases hc
    by_cases hc : c0 = ':'
    · subst hc
      rcases ht : tryNum r with _ | ⟨⟨ds, dc, rest⟩⟩
      · rw [fixNum_colon_none ht]
        intro c hcm
        rcases List.mem_cons.mp hcm with rfl | hcm2
        · exact hc1
        · exact ih r (by simpa using hlen) (fun x hx => h x (by simp [hx])) c hcm2
      · obtain ⟨hdec, -, hdig, hdelim, -⟩ := tryNum_spec ht
        have hrlen : rest.length ≤ m := by
          have hrm : r.length ≤ m := by simpa using hlen
          have := congrArg List.length hdec
          simp at this
          omega
        have hrest : ∀ c ∈ rest, P c := by
          intro c hcm
          refine h c ?_
          rw [List.mem_cons, hdec]
          simp [hcm]
        rw [fixNum_colon_some ht]
        intro c hcm
        simp only [List.mem_cons, List.mem_append] at hcm
        rcases hcm with rfl | rfl | hcm | rfl | hcm
        · exact hc1
        · exact hc2
        · exact hcd c (hdig c hcm)
        · rcases hdelim with rfl | rfl
          · exact hcc
          · exact hcb
        · exact ih rest hrlen hrest c hcm
    · rw [fixNum_cons_ne r hc]
      intro c hcm
      rcases List.mem_cons.mp hcm with rfl | hcm2
      · exact h c (by simp)
      · exact ih r (by simpa using hlen) (fun x hx => h x (by simp [hx])) c hcm2


theorem timeClean_fixLit_pres {lit : List Char} (hl : LitOK lit) {l : List Char}
    (h : timeClean l = true) : timeClean (fixLit lit l) = true :=
  timeClean_pres_fixLit hl l.length l le_rfl h

theorem timeClean_fixNum_pres {l : List Char} (h : timeClean l = true) :
    timeClean (fixNum l) = true :=
  timeClean_pres_fixNum l.length l le_rfl h

theorem litClean_fixLit_pres {lit1 lit2 : List Char} (h1 : LitOK lit1) (h2 : LitOK lit2)
    (hhd : ∀ a t1 b t2, lit1 = a :: t1 → lit2 = b :: t2 → a ≠ b) {l : List Char}
    (h : litClean lit1 l = true) : litClean lit1 (fixLit lit2 l) = true :=
  litClean_pres_fixLit h1 h2 hhd l.length l le_rfl h

theorem litClean_fixNum_pres {lit : List Char} (hl : LitOK lit) {l : List Char}
    (h : litClean lit l = true) : litClean lit (fixNum l) = true :=
  litClean_pres_fixNum hl l.length l le_rfl h

theorem stripCRLF_no_crlf (l : List Char) :
    ∀ c ∈ stripCRLF l, c ≠ '\r' ∧ c ≠ '\n' := by
  intro c hc
  rw [stripCRLF] at hc
  have h2 := List.mem_filter.mp hc
  have h1 := List.mem_filter.mp h2.1
  refine ⟨by simpa using h1.2, by simpa using h2.2⟩

theorem stripCRLF_eq_self {l : List Char} (h : ∀ c ∈ l, c ≠ '\r' ∧ c ≠ '\n') :
    stripCRLF l = l := by
  have h1 : l.filter (fun c => c ≠ '\r') = l :=
    List.filter_eq_self.mpr (fun a ha => by simp [(h a ha).1])
  rw [stripCRLF, h1, List.filter_eq_self.mpr (fun a ha => by simp [(h a ha).2])]

theorem fixJsonStringL_idem (l : List Char) :
    fixJsonStringL (fixJsonStringL l) = fixJsonStringL l := by
  have hhd_tf : ∀ a t1 b t2, trueLit = a :: t1 → falseLit = b :: t2 → a ≠ b := by
    intro a t1 b t2 h1 h2
    cases h1
    cases h2
    decide
  have hhd_tn : ∀ a t1 b t2, trueLit = a :: t1 → nullLit = b :: t2 → a ≠ b := by
    intro a t1 b t2 h1 h2
    cases h1
    cases h2
    decide
  have hhd_fn : ∀ a t1 b t2, falseLit = a :: t1 → nullLit = b :: t2 → a ≠ b := by
    intro a t1 b t2 h1 h2
    cases h1
    cases h2
    decide
  set F := fixJsonStringL l with hF
  have htime : timeClean F = true := by
    rw [hF, fixJsonStringL]
    exact timeClean_fixNum_pres (timeClean_fixLit_pres litOK_null
      (timeClean_fixLit_pres litOK_false (timeClean_fixLit_pres litOK_true
        (timeClean_fixTime _))))
  have htrue : litClean trueLit F = true := by
    rw [hF, fixJsonStringL]
    exact litClean_fixNum_pres litOK_true (litClean_fixLit_pres litOK_true litOK_null
      hhd_tn (litClean_fixLit_pres litOK_true litOK_false hhd_tf
        (litClean_fixLit litOK_true _)))
  have hfalse : litClean falseLit F = true := by
    rw [hF, fixJsonStringL]
    exact litClean_fixNum_pres litOK_false (litClean_fixLit_pres litOK_false litOK_null
      hhd_fn (litClean_fixLit litOK_false _))
  have hnull : litClean nullLit F = true := by
    rw [hF, fixJsonStringL]
    exact litClean_fixNum_pres litOK_null (litClean_fixLit litOK_null _)
  have hnum : numClean F = true := by
    rw [hF, fixJsonStringL]
    exact numClean_fixNum _
  have hcrlf : ∀ c ∈ F, c ≠ '\r' ∧ c ≠ '\n' := by
    rw [hF, fixJsonStringL]
    refine fixNum_forall_pres _ (by decide) (by decide)
      (fun d hd => ⟨digit_ne hd (by decide), digit_ne hd (by decide)⟩)
      (by decide) (by decide) _ _ le_rfl ?_
    refine fixLit_forall_pres _ (by decide) (by decide) (by decide) _ _ le_rfl ?_
    refine fixLit_forall_pres _ (by decide) (by decide) (by decide) _ _ le_rfl ?_
    refine fixLit_forall_pres _ (by decide) (by decide) (by decide) _ _ le_rfl ?_
    refine fixTime_forall_pres _ (by decide) (by decide) (by decide)
      (fun d hd => ⟨digit_ne hd (by decide), digit_ne hd (by decide)⟩) _ _ le_rfl ?_
    exact stripCRLF_no_crlf l
  have h0 : stripCRLF F = F := stripCRLF_eq_self hcrlf
  have h1 : fixTime F = F := timeClean_id htime
  have h2 : fixLit trueLit F = F := litClean_id litOK_true.no_colon htrue
  have h3 : fixLit falseLit F = F := litClean_id litOK_false.no_colon hfalse
  have h4 : fixLit nullLit F = F := litClean_id litOK_null.no_colon hnull
  have h5 : fixNum F = F := numClean_id hnum
  calc fixJsonStringL F
      = fixNum (fixLit nullLit (fixLit falseLit (fixLit trueLit
          (fixTime (stripCRLF F))))) := rfl
    _ = F := by rw [h0, h1, h2, h3, h4, h5]


/-- C6 amended: the payload repair function is idempotent on every string. -/
theorem fixJsonString_idempotent (s : String) :
    fixJsonString (fixJsonString s) = fixJsonString s := by
  by_cases hs : s = ""
  · subst hs
    rfl
  · have hinner : fixJsonString s = String.mk (fixJsonStringL s.toList) := by
      rw [fixJsonString, if_neg hs]
    rw [hinner]
    by_cases ht : String.mk (fixJsonStringL s.toList) = ""
    · rw [fixJsonString, if_pos ht]
    · rw [fixJsonString, if_neg ht]
      rw [show (String.mk (fixJsonStringL s.toList)).toList =
        fixJsonStringL s.toList from rfl]
      rw [fixJsonStringL_idem]

/-- C6 counterexample: the repair is not a no-op on the already-valid JSON
payload with an unspaced numeric value — it inserts a space after the
colon. -/
theorem fixJsonString_not_noop :
    fixJsonString "\x7b\"a\":1\x7d" = "\x7b\"a\": 1\x7d" ∧
    ("\x7b\"a\": 1\x7d" : String) ≠ "\x7b\"a\":1\x7d" := by
  exact ⟨rfl, by decide⟩

end Server
